import Mathlib

/-!
Verification of the obsidian-note-share worker (Cloudflare Worker backend).

The development shallowly embeds the worker's data model and operations:

* `slugify` — shared/slug (also inlined in `src/render.ts` line 114 and in the
  early worker `slugify` helper): lowercase, collapse runs of characters
  outside `[a-z0-9]` to a single hyphen, strip the leading/trailing hyphen.
* `generateNoteHash` — `shared/hash` / `worker/src/types.ts`: hex encoding of
  the first `HASH_BYTES` bytes of the SHA-256 digest of `"{vault}:{title}"`.
  The platform digest primitive (`crypto.subtle.digest`) is modelled as an
  explicit function parameter `sha`.
* the R2 object store — modelled as association lists keyed by the structured
  parts of the R2 key (`notes/{titleSlug}-{hash}.json` keyed by the pair,
  `{vault}/index.json` keyed by the vault, `images/{noteHash}/{filename}`
  keyed by the pair).
* `addToIndex` / `removeFromIndex`, the `POST /api/share` publish path, the
  `DELETE /api/notes/...` path, `PUT /api/theme`, `GET /g/...` and the
  scheduled `cleanupExpiredNotes` sweep — all from `src/index.ts`.
* `processInternalLinks` and `escapeHtml` — from `src/render.ts`.

Timestamps (`new Date().toISOString()` strings in the source) are modelled as
integer epoch milliseconds; ISO-8601 timestamps are order-isomorphic to their
millisecond value and the worker runs in UTC, where `Date.setDate(+N)` is
exactly `+ N * 86400000` ms.
-/

namespace NoteShare

/-! ## Identity Resolver: slugify (shared/slug, inlined at render.ts:114) -/

/-- Membership in the character class `[a-z0-9]` of the source regex
`/[^a-z0-9]+/g`. -/
def isSlugChar (c : Char) : Bool :=
  decide (('a' ≤ c ∧ c ≤ 'z') ∨ ('0' ≤ c ∧ c ≤ '9'))

/-- Pointwise effect of `.replace(/[^a-z0-9]+/g, '-')`: a character outside
`[a-z0-9]` becomes a hyphen (run-collapsing is done by `squeezeHyphens`). -/
def hyphenate (c : Char) : Char :=
  if isSlugChar c then c else '-'

/-- Collapse every maximal run of hyphens to a single hyphen. Together with
the pointwise `hyphenate` map this is `.replace(/[^a-z0-9]+/g, '-')`. -/
def squeezeHyphens : List Char → List Char
  | [] => []
  | [c] => [c]
  | c :: d :: cs =>
    if c = '-' ∧ d = '-' then squeezeHyphens (d :: cs)
    else c :: squeezeHyphens (d :: cs)

/-- The `^-` alternative of `.replace(/^-|-$/g, '')`: drop one leading
hyphen. -/
def dropLeadHyphen : List Char → List Char
  | [] => []
  | c :: cs => if c = '-' then cs else c :: cs

/-- The `-$` alternative of `.replace(/^-|-$/g, '')`: drop one trailing
hyphen. -/
def dropTrailHyphen (l : List Char) : List Char :=
  (dropLeadHyphen l.reverse).reverse

/-- `.replace(/^-|-$/g, '')`: one leading and one trailing hyphen removed
(after run-collapsing these are the only edge hyphens possible). -/
def stripEdgeHyphens (l : List Char) : List Char :=
  dropTrailHyphen (dropLeadHyphen l)

/-- `slugify` from the shared package:
`text.toLowerCase().replace(/[^a-z0-9]+/g, '-').replace(/^-|-$/g, '')`. -/
def slugify (s : String) : String :=
  String.mk (stripEdgeHyphens (squeezeHyphens (s.data.map (fun c => hyphenate c.toLower))))

/-- A character that can appear in a slugified string. -/
def goodChar (c : Char) : Prop := isSlugChar c = true ∨ c = '-'

instance (c : Char) : Decidable (goodChar c) := by
  unfold goodChar; infer_instance

/-- Adjacent characters are not both hyphens. -/
def noHH (a b : Char) : Prop := ¬(a = '-' ∧ b = '-')

theorem goodChar_hyphenate (c : Char) : goodChar (hyphenate c) := by
  unfold hyphenate
  by_cases h : isSlugChar c = true
  · simp [h, goodChar]
  · simp [h, goodChar]

theorem mem_squeezeHyphens {c : Char} : ∀ l, c ∈ squeezeHyphens l → c ∈ l
  | [] => by simp [squeezeHyphens]
  | [d] => by simp [squeezeHyphens]
  | a :: b :: t => by
    simp only [squeezeHyphens]
    split
    · intro h
      exact List.mem_cons_of_mem _ (mem_squeezeHyphens (b :: t) h)
    · intro h
      rcases List.mem_cons.mp h with h | h
      · exact h ▸ List.mem_cons_self _ _
      · exact List.mem_cons_of_mem _ (mem_squeezeHyphens (b :: t) h)

theorem head?_squeezeHyphens : ∀ l : List Char, (squeezeHyphens l).head? = l.head?
  | [] => rfl
  | [_] => rfl
  | a :: b :: t => by
    simp only [squeezeHyphens]
    split
    · next hab =>
      rw [head?_squeezeHyphens (b :: t)]
      simp [hab.1, hab.2]
    · simp

theorem chain'_squeezeHyphens : ∀ l : List Char, List.Chain' noHH (squeezeHyphens l)
  | [] => by simp [squeezeHyphens]
  | [c] => by simp [squeezeHyphens]
  | a :: b :: t => by
    simp only [squeezeHyphens]
    split
    · exact chain'_squeezeHyphens (b :: t)
    · next hab =>
      rw [List.chain'_cons']
      refine ⟨?_, chain'_squeezeHyphens (b :: t)⟩
      intro x hx
      rw [head?_squeezeHyphens (b :: t)] at hx
      simp only [List.head?_cons, Option.mem_def, Option.some.injEq] at hx
      subst hx
      exact hab

theorem squeezeHyphens_of_chain' : ∀ l : List Char, List.Chain' noHH l → squeezeHyphens l = l
  | [], _ => rfl
  | [_], _ => rfl
  | a :: b :: t, h => by
    have hab : noHH a b := (List.chain'_cons.mp h).1
    have ht : List.Chain' noHH (b :: t) := (List.chain'_cons.mp h).2
    simp only [squeezeHyphens]
    rw [if_neg hab, squeezeHyphens_of_chain' (b :: t) ht]

theorem mem_dropLeadHyphen {c : Char} : ∀ l, c ∈ dropLeadHyphen l → c ∈ l
  | [] => by simp [dropLeadHyphen]
  | a :: t => by
    simp only [dropLeadHyphen]
    split
    · exact List.mem_cons_of_mem _
    · exact id

theorem chain'_dropLeadHyphen {l : List Char} (h : List.Chain' noHH l) :
    List.Chain' noHH (dropLeadHyphen l) := by
  cases l with
  | nil => simp [dropLeadHyphen]
  | cons a t =>
    simp only [dropLeadHyphen]
    split
    · exact h.tail
    · exact h

theorem head?_dropLeadHyphen {l : List Char} (h : List.Chain' noHH l) :
    (dropLeadHyphen l).head? ≠ some '-' := by
  cases l with
  | nil => simp [dropLeadHyphen]
  | cons a t =>
    simp only [dropLeadHyphen]
    split
    · next ha =>
      subst ha
      cases t with
      | nil => simp
      | cons b t' =>
        have hab : noHH '-' b := (List.chain'_cons.mp h).1
        simp only [List.head?_cons, ne_eq, Option.some.injEq]
        intro hb
        exact hab ⟨rfl, hb⟩
    · next ha => simpa using ha

theorem dropLeadHyphen_of_head {l : List Char} (h : l.head? ≠ some '-') :
    dropLeadHyphen l = l := by
  cases l with
  | nil => rfl
  | cons a t =>
    simp only [dropLeadHyphen]
    rw [if_neg]
    simpa using h

theorem getLast?_dropLeadHyphen {l : List Char} {c : Char}
    (h : (dropLeadHyphen l).getLast? = some c) : l.getLast? = some c := by
  cases l with
  | nil => simp [dropLeadHyphen] at h
  | cons a t =>
    simp only [dropLeadHyphen] at h
    split at h
    · cases t with
      | nil => simp at h
      | cons b t' => rw [List.getLast?_cons_cons]; exact h
    · exact h

theorem chain'_reverse_noHH {l : List Char} (h : List.Chain' noHH l) :
    List.Chain' noHH l.reverse := by
  rw [List.chain'_reverse]
  exact h.imp (fun a b hab => fun ⟨h1, h2⟩ => hab ⟨h2, h1⟩)

theorem mem_dropTrailHyphen {c : Char} {l : List Char} (h : c ∈ dropTrailHyphen l) :
    c ∈ l := by
  unfold dropTrailHyphen at h
  rw [List.mem_reverse] at h
  exact List.mem_reverse.mp (mem_dropLeadHyphen _ h)

theorem chain'_dropTrailHyphen {l : List Char} (h : List.Chain' noHH l) :
    List.Chain' noHH (dropTrailHyphen l) :=
  chain'_reverse_noHH (chain'_dropLeadHyphen (chain'_reverse_noHH h))

theorem getLast?_dropTrailHyphen {l : List Char} (h : List.Chain' noHH l) :
    (dropTrailHyphen l).getLast? ≠ some '-' := by
  unfold dropTrailHyphen
  rw [List.getLast?_reverse]
  exact head?_dropLeadHyphen (chain'_reverse_noHH h)

theorem head?_dropTrailHyphen {l : List Char} {c : Char}
    (h : (dropTrailHyphen l).head? = some c) : l.head? = some c := by
  unfold dropTrailHyphen at h
  rw [List.head?_reverse] at h
  rw [← List.getLast?_reverse]
  exact getLast?_dropLeadHyphen h

theorem dropTrailHyphen_of_getLast {l : List Char} (h : l.getLast? ≠ some '-') :
    dropTrailHyphen l = l := by
  unfold dropTrailHyphen
  rw [dropLeadHyphen_of_head, List.reverse_reverse]
  rwa [List.head?_reverse]

theorem char_le_toNat {a b : Char} (h : a ≤ b) : a.toNat ≤ b.toNat := by
  rw [Char.le_def, UInt32.le_def, BitVec.le_def] at h
  exact h

theorem toLower_of_goodChar {c : Char} (h : goodChar c) : c.toLower = c := by
  unfold Char.toLower
  rw [if_neg]
  rintro ⟨h65, h90⟩
  rcases h with h | h
  · have h' := of_decide_eq_true h
    rcases h' with ⟨h1, -⟩ | ⟨-, h2⟩
    · have ha := char_le_toNat h1
      have : ('a' : Char).toNat = 97 := rfl
      omega
    · have h9 := char_le_toNat h2
      have : ('9' : Char).toNat = 57 := rfl
      omega
  · subst h
    have : ('-' : Char).toNat = 45 := rfl
    omega

theorem hyphenate_toLower_of_goodChar {c : Char} (h : goodChar c) :
    hyphenate c.toLower = c := by
  rw [toLower_of_goodChar h]
  unfold hyphenate
  rcases h with h | h
  · rw [if_pos h]
  · subst h
    rw [if_neg (by decide)]

theorem map_hyphenate_toLower_fix {l : List Char} (h : ∀ c ∈ l, goodChar c) :
    l.map (fun c => hyphenate c.toLower) = l := by
  induction l with
  | nil => rfl
  | cons a t ih =>
    simp only [List.map_cons]
    rw [hyphenate_toLower_of_goodChar (h a (List.mem_cons_self a t)),
      ih (fun c hc => h c (List.mem_cons_of_mem _ hc))]

/-- The shape invariant of a slugified character list: only `[a-z0-9-]`
characters, no two adjacent hyphens, no leading and no trailing hyphen. -/
def SlugInv (l : List Char) : Prop :=
  (∀ c ∈ l, goodChar c) ∧ List.Chain' noHH l ∧
    l.head? ≠ some '-' ∧ l.getLast? ≠ some '-'

theorem data_mk (l : List Char) : (String.mk l).data = l := rfl

theorem slugify_data (s : String) :
    (slugify s).data
      = stripEdgeHyphens (squeezeHyphens (s.data.map (fun c => hyphenate c.toLower))) := rfl

theorem slugInv_slugify (s : String) : SlugInv (slugify s).data := by
  rw [slugify_data]
  set m := squeezeHyphens (s.data.map (fun c => hyphenate c.toLower)) with hm
  have hmem : ∀ c ∈ m, goodChar c := by
    intro c hc
    rcases List.mem_map.mp (mem_squeezeHyphens _ hc) with ⟨d, -, hd⟩
    exact hd ▸ goodChar_hyphenate d.toLower
  have hch : List.Chain' noHH m := chain'_squeezeHyphens _
  unfold stripEdgeHyphens
  refine ⟨?_, chain'_dropTrailHyphen (chain'_dropLeadHyphen hch), ?_, ?_⟩
  · intro c hc
    exact hmem c (mem_dropLeadHyphen _ (mem_dropTrailHyphen hc))
  · intro hh
    exact head?_dropLeadHyphen hch (head?_dropTrailHyphen hh)
  · exact getLast?_dropTrailHyphen (chain'_dropLeadHyphen hch)

theorem slugify_of_slugInv {l : List Char} (h : SlugInv l) :
    slugify (String.mk l) = String.mk l := by
  obtain ⟨hmem, hch, hhd, hlast⟩ := h
  unfold slugify
  rw [data_mk, map_hyphenate_toLower_fix hmem, squeezeHyphens_of_chain' l hch]
  unfold stripEdgeHyphens
  rw [dropLeadHyphen_of_head hhd, dropTrailHyphen_of_getLast hlast]

/-- C9: `slugify` produces only characters of the class `[a-z0-9]` plus single
separating hyphens — every maximal run of characters outside `[a-z0-9]`
(after lowercasing) collapses to one hyphen, so no two adjacent hyphens
survive — with the leading and trailing hyphen stripped; and `slugify` is
idempotent: `slugify (slugify x) = slugify x` for every string `x`. -/
theorem C9_slugify_shape_idempotent (s : String) :
    (∀ c ∈ (slugify s).data, isSlugChar c = true ∨ c = '-') ∧
    List.Chain' noHH (slugify s).data ∧
    (slugify s).data.head? ≠ some '-' ∧
    (slugify s).data.getLast? ≠ some '-' ∧
    slugify (slugify s) = slugify s := by
  obtain ⟨h1, h2, h3, h4⟩ := slugInv_slugify s
  refine ⟨h1, h2, h3, h4, ?_⟩
  have e : String.mk (slugify s).data = slugify s := rfl
  calc slugify (slugify s) = slugify (String.mk (slugify s).data) := by rw [e]
    _ = String.mk (slugify s).data := slugify_of_slugInv (slugInv_slugify s)
    _ = slugify s := e

/-! ## Identity Resolver: generateNoteHash (shared/hash, worker/src/types.ts) -/

/-- `HASH_BYTES` from the shared constants (see `plugin/src/main.ts` line 11:
hash bytes to use for URL, 4 bytes = 8 hex chars). -/
def HASH_BYTES : Nat := 4

/-- `new TextEncoder().encode(s)`: the UTF-8 bytes of `s`. -/
def utf8Bytes (s : String) : List Nat :=
  s.toUTF8.toList.map (fun b => b.toNat)

/-- One byte rendered as in the source: `b.toString(16).padStart(2, '0')`. -/
def byteToHex (b : Nat) : String :=
  let s := String.mk (Nat.toDigits 16 b)
  if s.length < 2 then String.mk (List.replicate (2 - s.length) '0' ++ s.data) else s

/-- `generateNoteHash` from `shared/hash` (declared in
`worker/src/types.ts` lines 58-67): SHA-256 of `"{vault}:{title}"`, first
`HASH_BYTES` bytes, each byte two lowercase hex digits, concatenated. The
platform digest `crypto.subtle.digest('SHA-256', ·)` is the parameter
`sha` (an external primitive, not code of this repository). -/
def generateNoteHash (sha : List Nat → List Nat) (vault title : String) : String :=
  let data := utf8Bytes (vault ++ ":" ++ title)
  let hashArray := sha data
  String.join ((hashArray.take HASH_BYTES).map byteToHex)

/-- Spec-side lowercase hex digit: `0`-`9` then `a`-`f`. -/
def specHexDigit (n : Nat) : Char :=
  if n < 10 then Char.ofNat (48 + n) else Char.ofNat (87 + n)

/-- Spec-side description of the encoding: each byte contributes its high
nibble then its low nibble as lowercase hex digits. -/
def specLowerHex (bytes : List Nat) : String :=
  String.mk (bytes.foldr (fun b acc => specHexDigit (b / 16) :: specHexDigit (b % 16) :: acc) [])

set_option maxRecDepth 4096 in
theorem byteToHex_eq_spec :
    ∀ b < 256, byteToHex b = String.mk [specHexDigit (b / 16), specHexDigit (b % 16)] := by
  decide

theorem foldl_append_shift (l : List String) :
    ∀ a : String, l.foldl (fun r s => r ++ s) a = a ++ l.foldl (fun r s => r ++ s) "" := by
  induction l with
  | nil =>
    intro a
    show a = a ++ ""
    exact (String.append_empty a).symm
  | cons s t ih =>
    intro a
    rw [List.foldl_cons, List.foldl_cons, ih (a ++ s), ih ("" ++ s),
      String.empty_append, String.append_assoc]

theorem join_cons (s : String) (l : List String) :
    String.join (s :: l) = s ++ String.join l := by
  show (s :: l).foldl (fun r s => r ++ s) "" = s ++ l.foldl (fun r s => r ++ s) ""
  rw [List.foldl_cons, foldl_append_shift, String.empty_append]

theorem mk_append (a b : List Char) : String.mk a ++ String.mk b = String.mk (a ++ b) := rfl

theorem join_byteToHex {l : List Nat} (h : ∀ b ∈ l, b < 256) :
    String.join (l.map byteToHex) = specLowerHex l := by
  induction l with
  | nil => rfl
  | cons b t ih =>
    rw [List.map_cons, join_cons, byteToHex_eq_spec b (h b (List.mem_cons_self b t)),
      ih (fun x hx => h x (List.mem_cons_of_mem _ hx))]
    unfold specLowerHex
    rw [mk_append]
    rfl

theorem length_specLowerHex (l : List Nat) : (specLowerHex l).length = 2 * l.length := by
  unfold specLowerHex
  show (l.foldr (fun b acc => specHexDigit (b / 16) :: specHexDigit (b % 16) :: acc) []).length
    = 2 * l.length
  induction l with
  | nil => rfl
  | cons b t ih =>
    simp only [List.foldr_cons, List.length_cons]
    rw [ih]
    omega

theorem specHexDigit_mem_class :
    ∀ n < 16, ('0' ≤ specHexDigit n ∧ specHexDigit n ≤ '9') ∨
      ('a' ≤ specHexDigit n ∧ specHexDigit n ≤ 'f') := by
  decide

theorem mem_specLowerHex {l : List Nat} (h : ∀ b ∈ l, b < 256) :
    ∀ c ∈ (specLowerHex l).data, ('0' ≤ c ∧ c ≤ '9') ∨ ('a' ≤ c ∧ c ≤ 'f') := by
  unfold specLowerHex
  rw [data_mk]
  induction l with
  | nil => simp
  | cons b t ih =>
    rw [List.foldr_cons]
    intro c hc
    have hb : b < 256 := h b (List.mem_cons_self b t)
    rcases List.mem_cons.mp hc with rfl | hc'
    · exact specHexDigit_mem_class _ (by omega)
    · rcases List.mem_cons.mp hc' with rfl | hc'' 
      · exact specHexDigit_mem_class _ (Nat.mod_lt _ (by omega))
      · exact ih (fun x hx => h x (List.mem_cons_of_mem _ hx)) c hc''

/-- C2: given the digest function `sha` (the platform SHA-256),
`generateNoteHash sha vault title` is the lowercase hexadecimal encoding of
the first `HASH_BYTES = 4` bytes of the digest of the UTF-8 string
`"{vault}:{title}"`; it is 8 characters long, each in `[0-9a-f]`; and it is a
pure function of `(vault, title)`, so two calls with the same arguments
return the same hash. -/
theorem C2_generateNoteHash_hex (sha : List Nat → List Nat) (vault title : String)
    (hlen : HASH_BYTES ≤ (sha (utf8Bytes (vault ++ ":" ++ title))).length)
    (hbyte : ∀ b ∈ sha (utf8Bytes (vault ++ ":" ++ title)), b < 256) :
    generateNoteHash sha vault title
        = specLowerHex ((sha (utf8Bytes (vault ++ ":" ++ title))).take HASH_BYTES) ∧
    (generateNoteHash sha vault title).length = 8 ∧
    (∀ c ∈ (generateNoteHash sha vault title).data,
      ('0' ≤ c ∧ c ≤ '9') ∨ ('a' ≤ c ∧ c ≤ 'f')) ∧
    generateNoteHash sha vault title = generateNoteHash sha vault title := by
  have htake : ∀ b ∈ (sha (utf8Bytes (vault ++ ":" ++ title))).take HASH_BYTES, b < 256 :=
    fun b hb => hbyte b (List.take_subset _ _ hb)
  have he : generateNoteHash sha vault title
      = specLowerHex ((sha (utf8Bytes (vault ++ ":" ++ title))).take HASH_BYTES) := by
    unfold generateNoteHash
    exact join_byteToHex htake
  refine ⟨he, ?_, ?_, rfl⟩
  · rw [he, length_specLowerHex, List.length_take, Nat.min_eq_left hlen]
    rfl
  · rw [he]
    exact mem_specLowerHex htake

/-- Witness for C2 at a concrete digest function and concrete inputs. -/
theorem C2_generateNoteHash_hex_witness :
    generateNoteHash (fun _ => List.range 32) "demo" "note" = "00010203" ∧
    (generateNoteHash (fun _ => List.range 32) "demo" "note").length = 8 := by
  have h := C2_generateNoteHash_hex (fun _ => List.range 32) "demo" "note"
    (by decide) (by decide)
  exact ⟨h.1.trans (by decide), h.2.1⟩

/-! ## Data model (worker/src/types.ts, src/types.ts) and the R2 object store

The R2 bucket is modelled by association lists, keyed by the structured parts
of the R2 key string: `notes/{titleSlug}-{hash}.json` by the pair
`(titleSlug, hash)` (hashes are hex, so they contain no `-` and the pair is
recoverable from the key), `{vault}/index.json` by the vault,
`images/{noteHash}/{filename}` by that pair, `{vault}/theme.json` by the
vault. `put` overwrites, `get` of a missing key is `none`, `delete` of a
missing key is a no-op — R2 semantics. -/

/-- A `{titleSlug, hash}` reference as stored in `StoredNote.linkedNotes`. -/
structure LinkRef where
  titleSlug : String
  hash : String
deriving DecidableEq, Repr

/-- One entry of a vault's `NoteIndex` (`worker/src/types.ts`). `createdAt`
is an epoch-millisecond timestamp (ISO string in the source). -/
structure IndexEntry where
  titleSlug : String
  hash : String
  title : String
  createdAt : Int
deriving DecidableEq, Repr

/-- `StoredNote` (`worker/src/types.ts` / `src/types.ts`). Timestamps are
epoch milliseconds; `updatedAt` is optional because notes written by earlier
releases lack it (the sweep reads `note.updatedAt || note.createdAt`).
`retentionDays` is optional: `none` models the field being absent from the
stored JSON (as for linked notes, whose literal omits it). -/
structure StoredNote where
  vault : String
  titleSlug : String
  hash : String
  title : String
  content : String
  createdAt : Int
  updatedAt : Option Int
  linkedNotes : List LinkRef
  retentionDays : Option Int
deriving DecidableEq, Repr

/-- `ThemeSettings` (`worker/src/types.ts`). -/
structure ThemeSettings where
  backgroundPrimary : String
  backgroundSecondary : String
  textNormal : String
  textMuted : String
  textAccent : String
  interactiveAccent : String
  codeBackground : String
  fontSize : Int
deriving DecidableEq, Repr

/-- `DualThemeSettings`: optional light and dark slots plus `updatedAt`. -/
structure DualThemeSettings where
  light : Option ThemeSettings
  dark : Option ThemeSettings
  updatedAt : Option Int
deriving DecidableEq, Repr

/-- The R2 bucket contents relevant to the worker. -/
structure Store where
  notes : List ((String × String) × StoredNote)
  indexes : List (String × List IndexEntry)
  images : List (String × String)
  themes : List (String × DualThemeSettings)
deriving DecidableEq, Repr

/-- `bucket.get key` on an association list. -/
def alGet {κ α : Type} [DecidableEq κ] (l : List (κ × α)) (k : κ) : Option α :=
  (l.find? (fun p => decide (p.1 = k))).map (fun p => p.2)

/-- `bucket.put key v`: overwrite semantics. -/
def alPut {κ α : Type} [DecidableEq κ] (l : List (κ × α)) (k : κ) (v : α) :
    List (κ × α) :=
  (k, v) :: l.filter (fun p => decide (p.1 ≠ k))

/-- `bucket.delete key`: idempotent delete. -/
def alDel {κ α : Type} [DecidableEq κ] (l : List (κ × α)) (k : κ) : List (κ × α) :=
  l.filter (fun p => decide (p.1 ≠ k))

theorem alGet_alPut_self {κ α : Type} [DecidableEq κ] (l : List (κ × α)) (k : κ) (v : α) :
    alGet (alPut l k v) k = some v := by
  simp [alGet, alPut]

theorem alGet_alPut_ne {κ α : Type} [DecidableEq κ] (l : List (κ × α)) (k k' : κ) (v : α)
    (h : k' ≠ k) : alGet (alPut l k v) k' = alGet l k' := by
  unfold alGet alPut
  rw [List.find?_cons_of_neg _ (by simpa using fun e => h e.symm)]
  congr 1
  induction l with
  | nil => rfl
  | cons p t ih =>
    by_cases hp : p.1 = k
    · rw [List.filter_cons_of_neg (by simpa using hp),
        List.find?_cons_of_neg _ (by simpa using hp ▸ fun e => h e.symm), ih]
    · rw [List.filter_cons_of_pos (by simpa using hp)]
      by_cases hk' : p.1 = k'
      · rw [List.find?_cons_of_pos _ (by simpa using hk'),
          List.find?_cons_of_pos _ (by simpa using hk')]
      · rw [List.find?_cons_of_neg _ (by simpa using hk'),
          List.find?_cons_of_neg _ (by simpa using hk'), ih]

theorem alGet_alDel_self {κ α : Type} [DecidableEq κ] (l : List (κ × α)) (k : κ) :
    alGet (alDel l k) k = none := by
  unfold alGet alDel
  have hfind : List.find? (fun p => decide (p.1 = k)) (List.filter (fun p => decide (p.1 ≠ k)) l)
      = none := by
    rw [List.find?_eq_none]
    intro p hp
    have := List.of_mem_filter hp
    simpa using this
  rw [hfind]
  rfl

theorem alGet_alDel_ne {κ α : Type} [DecidableEq κ] (l : List (κ × α)) (k k' : κ)
    (h : k' ≠ k) : alGet (alDel l k) k' = alGet l k' := by
  unfold alGet alDel
  congr 1
  induction l with
  | nil => rfl
  | cons p t ih =>
    by_cases hp : p.1 = k
    · rw [List.filter_cons_of_neg (by simpa using hp),
        List.find?_cons_of_neg _ (by simpa using hp ▸ fun e => h e.symm), ih]
    · rw [List.filter_cons_of_pos (by simpa using hp)]
      by_cases hk' : p.1 = k'
      · rw [List.find?_cons_of_pos _ (by simpa using hk'),
          List.find?_cons_of_pos _ (by simpa using hk')]
      · rw [List.find?_cons_of_neg _ (by simpa using hk'),
          List.find?_cons_of_neg _ (by simpa using hk'), ih]

/-! ## Note Repository: index helpers, publish, delete (src/index.ts) -/

/-- Helper `addToIndex` (src/index.ts lines 329-350): read the vault's index
(or start from `{ notes: [] }`), remove any existing entry with the same
`(titleSlug, hash)`, unshift the fresh entry at the front, write back. -/
def addToIndex (indexes : List (String × List IndexEntry)) (vault : String)
    (e : IndexEntry) : List (String × List IndexEntry) :=
  let idx := (alGet indexes vault).getD []
  let idx' := e :: idx.filter (fun n => decide (¬(n.titleSlug = e.titleSlug ∧ n.hash = e.hash)))
  alPut indexes vault idx'

/-- Helper `removeFromIndex` (src/index.ts lines 353-368): if the vault has no
index object, return unchanged; else filter out the `(titleSlug, hash)` entry
and write back. -/
def removeFromIndex (indexes : List (String × List IndexEntry)) (vault titleSlug hash : String) :
    List (String × List IndexEntry) :=
  match alGet indexes vault with
  | none => indexes
  | some idx =>
    alPut indexes vault
      (idx.filter (fun n => decide (¬(n.titleSlug = titleSlug ∧ n.hash = hash))))

/-- A `{title, content}` pair of `body.linkedNotes` (`LinkedNote` in types). -/
structure LinkedNote where
  title : String
  content : String
deriving DecidableEq, Repr

/-- `ShareRequest` body of POST /api/share; `linkedNotes` absent is modelled
as `[]`, `retentionDays` absent as `none`. -/
structure ShareRequest where
  vault : String
  title : String
  content : String
  linkedNotes : List LinkedNote
  retentionDays : Option Int
deriving DecidableEq, Repr

/-- JavaScript `x || 0` on an optional number (`body.retentionDays || 0`):
absent or `0` (falsy) yields `0`, any other value is kept. -/
def jsOrZero (o : Option Int) : Int :=
  match o with
  | none => 0
  | some n => if n = 0 then 0 else n

/-- Storing one linked note inside POST /api/share (src/index.ts lines
109-152): resolve identity, preserve `createdAt` of any existing record at
that key, write the record — whose literal carries no `retentionDays` field —
then add it to the vault's index. Returns the updated store and the pushed
`{titleSlug, hash}` reference. -/
def publishLinkedNote (sha : List Nat → List Nat) (st : Store) (vault : String)
    (linked : LinkedNote) (now : Int) : Store × LinkRef :=
  let linkedTitleSlug := slugify linked.title
  let linkedHash := generateNoteHash sha vault linked.title
  let existingNote := alGet st.notes (linkedTitleSlug, linkedHash)
  let linkedCreatedAt := (existingNote.map (fun n => n.createdAt)).getD now
  let linkedNote : StoredNote :=
    { vault := vault, titleSlug := linkedTitleSlug, hash := linkedHash,
      title := linked.title, content := linked.content,
      createdAt := linkedCreatedAt, updatedAt := some now,
      linkedNotes := [], retentionDays := none }
  let st1 := { st with notes := alPut st.notes (linkedTitleSlug, linkedHash) linkedNote }
  let linkedEntry : IndexEntry :=
    { titleSlug := linkedTitleSlug, hash := linkedHash, title := linked.title,
      createdAt := linkedNote.createdAt }
  let st2 := { st1 with indexes := addToIndex st1.indexes vault linkedEntry }
  (st2, { titleSlug := linkedTitleSlug, hash := linkedHash })

/-- The linked notes of one share call, processed one after the other. This
SERIALIZES what src/index.ts lines 122-152 run under `Promise.all`: there,
each task's `addToIndex` is a read-modify-write of `{vault}/index.json` with
an `await` between the read and the write, so on the event loop two tasks
can both read the old index and then both write, losing the first task's
entry. This definition models only the serialized schedules; the general
scheduled semantics, including the lost-update interleavings, is
`execLinkedOp`/`publishScheduled` below (the two agree on the serialized
schedule, see `publishScheduled_serialized_demo`). Every valid schedule
completes all linked-note writes before the primary note is written, which
is all that C4 and C10 use. -/
def publishLinkedAll (sha : List Nat → List Nat) (st : Store) (vault : String)
    (links : List LinkedNote) (now : Int) : Store × List LinkRef :=
  match links with
  | [] => (st, [])
  | l :: ls =>
    let p := publishLinkedNote sha st vault l now
    let q := publishLinkedAll sha p.1 vault ls now
    (q.1, p.2 :: q.2)

/-- Outcome of one POST /api/share call: the final store, the response
identity, and the note-object keys in the order their writes complete. -/
structure ShareResult where
  store : Store
  titleSlug : String
  hash : String
  written : List (String × String)
deriving Repr

/-- POST /api/share (src/index.ts lines 96-199) after request validation:
store every linked note first, then read any existing primary record to
preserve its `createdAt`, then write the primary note — carrying the
`linkedNotes` back-references and `retentionDays: body.retentionDays || 0` —
and update the vault's index. -/
def publish (sha : List Nat → List Nat) (st : Store) (body : ShareRequest) (now : Int) :
    ShareResult :=
  let titleSlug := slugify body.title
  let hash := generateNoteHash sha body.vault body.title
  let pr := publishLinkedAll sha st body.vault body.linkedNotes now
  let st1 := pr.1
  let linkedNotes := pr.2
  let createdAt := ((alGet st1.notes (titleSlug, hash)).map (fun n => n.createdAt)).getD now
  let note : StoredNote :=
    { vault := body.vault, titleSlug := titleSlug, hash := hash,
      title := body.title, content := body.content,
      createdAt := createdAt, updatedAt := some now,
      linkedNotes := linkedNotes,
      retentionDays := some (jsOrZero body.retentionDays) }
  let st2 := { st1 with notes := alPut st1.notes (titleSlug, hash) note }
  let noteEntry : IndexEntry :=
    { titleSlug := titleSlug, hash := hash, title := body.title,
      createdAt := note.createdAt }
  let st3 := { st2 with indexes := addToIndex st2.indexes body.vault noteEntry }
  { store := st3, titleSlug := titleSlug, hash := hash,
    written := (linkedNotes.map (fun r => (r.titleSlug, r.hash))) ++ [(titleSlug, hash)] }

/-- DELETE /api/notes/:vault/:titleSlug/:hash (src/index.ts lines 223-240):
delete the note object, then remove the entry from the vault's index. -/
def deleteNote (st : Store) (vault titleSlug hash : String) : Store :=
  let st1 := { st with notes := alDel st.notes (titleSlug, hash) }
  { st1 with indexes := removeFromIndex st1.indexes vault titleSlug hash }

theorem publishLinkedNote_fst_notes (sha : List Nat → List Nat) (st : Store) (vault : String)
    (linked : LinkedNote) (now : Int) :
    (publishLinkedNote sha st vault linked now).1.notes
      = alPut st.notes (slugify linked.title, generateNoteHash sha vault linked.title)
          { vault := vault, titleSlug := slugify linked.title,
            hash := generateNoteHash sha vault linked.title,
            title := linked.title, content := linked.content,
            createdAt := ((alGet st.notes (slugify linked.title,
              generateNoteHash sha vault linked.title)).map (fun n => n.createdAt)).getD now,
            updatedAt := some now, linkedNotes := [], retentionDays := none } := rfl

theorem publishLinkedNote_fst_indexes (sha : List Nat → List Nat) (st : Store) (vault : String)
    (linked : LinkedNote) (now : Int) :
    (publishLinkedNote sha st vault linked now).1.indexes
      = addToIndex st.indexes vault
          { titleSlug := slugify linked.title,
            hash := generateNoteHash sha vault linked.title,
            title := linked.title,
            createdAt := ((alGet st.notes (slugify linked.title,
              generateNoteHash sha vault linked.title)).map (fun n => n.createdAt)).getD now } := rfl

theorem publishLinkedNote_fst_images (sha : List Nat → List Nat) (st : Store) (vault : String)
    (linked : LinkedNote) (now : Int) :
    (publishLinkedNote sha st vault linked now).1.images = st.images := rfl

theorem publishLinkedNote_fst_themes (sha : List Nat → List Nat) (st : Store) (vault : String)
    (linked : LinkedNote) (now : Int) :
    (publishLinkedNote sha st vault linked now).1.themes = st.themes := rfl

theorem publishLinkedNote_snd (sha : List Nat → List Nat) (st : Store) (vault : String)
    (linked : LinkedNote) (now : Int) :
    (publishLinkedNote sha st vault linked now).2
      = { titleSlug := slugify linked.title,
          hash := generateNoteHash sha vault linked.title } := rfl

theorem publish_store_notes (sha : List Nat → List Nat) (st : Store) (body : ShareRequest)
    (now : Int) :
    (publish sha st body now).store.notes
      = alPut (publishLinkedAll sha st body.vault body.linkedNotes now).1.notes
          (slugify body.title, generateNoteHash sha body.vault body.title)
          { vault := body.vault, titleSlug := slugify body.title,
            hash := generateNoteHash sha body.vault body.title,
            title := body.title, content := body.content,
            createdAt := ((alGet (publishLinkedAll sha st body.vault body.linkedNotes now).1.notes
              (slugify body.title, generateNoteHash sha body.vault body.title)).map
                (fun n => n.createdAt)).getD now,
            updatedAt := some now,
            linkedNotes := (publishLinkedAll sha st body.vault body.linkedNotes now).2,
            retentionDays := some (jsOrZero body.retentionDays) } := rfl

theorem publish_store_indexes (sha : List Nat → List Nat) (st : Store) (body : ShareRequest)
    (now : Int) :
    (publish sha st body now).store.indexes
      = addToIndex (publishLinkedAll sha st body.vault body.linkedNotes now).1.indexes body.vault
          { titleSlug := slugify body.title,
            hash := generateNoteHash sha body.vault body.title,
            title := body.title,
            createdAt := ((alGet (publishLinkedAll sha st body.vault body.linkedNotes now).1.notes
              (slugify body.title, generateNoteHash sha body.vault body.title)).map
                (fun n => n.createdAt)).getD now } := rfl

theorem publish_titleSlug (sha : List Nat → List Nat) (st : Store) (body : ShareRequest)
    (now : Int) : (publish sha st body now).titleSlug = slugify body.title := rfl

theorem publish_hash (sha : List Nat → List Nat) (st : Store) (body : ShareRequest)
    (now : Int) :
    (publish sha st body now).hash = generateNoteHash sha body.vault body.title := rfl

theorem publish_written (sha : List Nat → List Nat) (st : Store) (body : ShareRequest)
    (now : Int) :
    (publish sha st body now).written
      = ((publishLinkedAll sha st body.vault body.linkedNotes now).2.map
          (fun r => (r.titleSlug, r.hash)))
        ++ [(slugify body.title, generateNoteHash sha body.vault body.title)] := rfl

theorem publishLinkedNote_preserves_createdAt {sha : List Nat → List Nat} {st : Store}
    {vault : String} {linked : LinkedNote} {now : Int} {k : String × String} {c : Int}
    (h : (alGet st.notes k).map (fun n => n.createdAt) = some c) :
    (alGet (publishLinkedNote sha st vault linked now).1.notes k).map (fun n => n.createdAt)
      = some c := by
  rw [publishLinkedNote_fst_notes]
  by_cases hk : k = (slugify linked.title, generateNoteHash sha vault linked.title)
  · subst hk
    rw [alGet_alPut_self]
    simp only [Option.map_some']
    rw [h]
    rfl
  · rw [alGet_alPut_ne _ _ _ _ hk, h]

theorem publishLinkedAll_preserves_createdAt {sha : List Nat → List Nat} {vault : String}
    {now : Int} {k : String × String} {c : Int} :
    ∀ (links : List LinkedNote) (st : Store),
      (alGet st.notes k).map (fun n => n.createdAt) = some c →
      (alGet (publishLinkedAll sha st vault links now).1.notes k).map (fun n => n.createdAt)
        = some c
  | [], _, h => h
  | _ :: ls, _, h =>
    publishLinkedAll_preserves_createdAt ls _ (publishLinkedNote_preserves_createdAt h)

/-- C3: publishing the same `(vault, title)` twice (with possibly different
content, linked notes, retention and times) yields the same `titleSlug` and
`hash` — hence the same storage key `notes/{titleSlug}-{hash}.json` — both
times; the note stored by the second publish keeps the `createdAt` of the
note stored by the first publish, while its `updatedAt` is the second
publish's time and its `content` is the second request's content. -/
theorem C3_update_in_place (sha : List Nat → List Nat) (st : Store) (v t c1 c2 : String)
    (L1 L2 : List LinkedNote) (d1 d2 : Option Int) (now1 now2 : Int) :
    (publish sha ((publish sha st ⟨v, t, c1, L1, d1⟩ now1).store) ⟨v, t, c2, L2, d2⟩ now2).titleSlug
        = (publish sha st ⟨v, t, c1, L1, d1⟩ now1).titleSlug ∧
    (publish sha ((publish sha st ⟨v, t, c1, L1, d1⟩ now1).store) ⟨v, t, c2, L2, d2⟩ now2).hash
        = (publish sha st ⟨v, t, c1, L1, d1⟩ now1).hash ∧
    (alGet (publish sha ((publish sha st ⟨v, t, c1, L1, d1⟩ now1).store) ⟨v, t, c2, L2, d2⟩ now2).store.notes
        (slugify t, generateNoteHash sha v t)).map (fun n => n.createdAt)
      = (alGet (publish sha st ⟨v, t, c1, L1, d1⟩ now1).store.notes
          (slugify t, generateNoteHash sha v t)).map (fun n => n.createdAt) ∧
    (alGet (publish sha ((publish sha st ⟨v, t, c1, L1, d1⟩ now1).store) ⟨v, t, c2, L2, d2⟩ now2).store.notes
        (slugify t, generateNoteHash sha v t)).map (fun n => n.updatedAt)
      = some (some now2) ∧
    (alGet (publish sha ((publish sha st ⟨v, t, c1, L1, d1⟩ now1).store) ⟨v, t, c2, L2, d2⟩ now2).store.notes
        (slugify t, generateNoteHash sha v t)).map (fun n => n.content)
      = some c2 := by
  refine ⟨rfl, rfl, ?_, ?_, ?_⟩
  · have h1 : (alGet (publish sha st ⟨v, t, c1, L1, d1⟩ now1).store.notes
        (slugify t, generateNoteHash sha v t)).map (fun n => n.createdAt)
        = some (((alGet (publishLinkedAll sha st v L1 now1).1.notes
            (slugify t, generateNoteHash sha v t)).map (fun n => n.createdAt)).getD now1) := by
      rw [publish_store_notes, alGet_alPut_self]
      rfl
    have h2 := @publishLinkedAll_preserves_createdAt sha v now2 _ _ L2 _ h1
    rw [publish_store_notes, alGet_alPut_self, h1]
    simp only [Option.map_some']
    rw [h2]
    rfl
  · rw [publish_store_notes, alGet_alPut_self]
    rfl
  · rw [publish_store_notes, alGet_alPut_self]
    rfl

theorem alPut_preserves_isSome {κ α : Type} [DecidableEq κ] (l : List (κ × α)) (k k' : κ)
    (v : α) (h : (alGet l k').isSome) : (alGet (alPut l k v) k').isSome := by
  by_cases hk : k' = k
  · subst hk
    rw [alGet_alPut_self]
    rfl
  · rw [alGet_alPut_ne _ _ _ _ hk]
    exact h

theorem publishLinkedNote_preserves_isSome {sha : List Nat → List Nat} {st : Store}
    {vault : String} {linked : LinkedNote} {now : Int} {k : String × String}
    (h : (alGet st.notes k).isSome) :
    (alGet (publishLinkedNote sha st vault linked now).1.notes k).isSome := by
  rw [publishLinkedNote_fst_notes]
  exact alPut_preserves_isSome _ _ _ _ h

theorem publishLinkedNote_isSome_self (sha : List Nat → List Nat) (st : Store)
    (vault : String) (linked : LinkedNote) (now : Int) :
    (alGet (publishLinkedNote sha st vault linked now).1.notes
      (slugify linked.title, generateNoteHash sha vault linked.title)).isSome := by
  rw [publishLinkedNote_fst_notes, alGet_alPut_self]
  rfl

theorem publishLinkedAll_preserves_isSome {sha : List Nat → List Nat} {vault : String}
    {now : Int} {k : String × String} :
    ∀ (links : List LinkedNote) (st : Store), (alGet st.notes k).isSome →
      (alGet (publishLinkedAll sha st vault links now).1.notes k).isSome
  | [], _, h => h
  | _ :: ls, _, h =>
    publishLinkedAll_preserves_isSome ls _ (publishLinkedNote_preserves_isSome h)

theorem publishLinkedAll_refs_isSome {sha : List Nat → List Nat} {vault : String} {now : Int} :
    ∀ (links : List LinkedNote) (st : Store),
      ∀ r ∈ (publishLinkedAll sha st vault links now).2,
        (alGet (publishLinkedAll sha st vault links now).1.notes (r.titleSlug, r.hash)).isSome
  | [], _, _, hr => absurd hr (by simp [publishLinkedAll])
  | l :: ls, st, r, hr => by
    have hshape2 : (publishLinkedAll sha st vault (l :: ls) now).2
        = (publishLinkedNote sha st vault l now).2
          :: (publishLinkedAll sha (publishLinkedNote sha st vault l now).1 vault ls now).2 := rfl
    have hshape1 : (publishLinkedAll sha st vault (l :: ls) now).1
        = (publishLinkedAll sha (publishLinkedNote sha st vault l now).1 vault ls now).1 := rfl
    rw [hshape1]
    rw [hshape2] at hr
    rcases List.mem_cons.mp hr with hr0 | hr'
    · subst hr0
      exact publishLinkedAll_preserves_isSome ls _
        (publishLinkedNote_isSome_self sha st vault l now)
    · exact publishLinkedAll_refs_isSome ls _ r hr'

/-- C4: within one POST /api/share call, every linked note named in the
request is written before the primary note — the ordered list of completed
note writes ends with the primary note's key and its earlier elements are
exactly the keys of the stored primary note's `linkedNotes` — and after the
call every entry of the primary note's `linkedNotes` refers to a note object
that exists in the store. -/
theorem C4_publish_write_order (sha : List Nat → List Nat) (st : Store)
    (body : ShareRequest) (now : Int) :
    (publish sha st body now).written.getLast?
        = some ((publish sha st body now).titleSlug, (publish sha st body now).hash) ∧
    ∃ p, alGet (publish sha st body now).store.notes
          ((publish sha st body now).titleSlug, (publish sha st body now).hash) = some p ∧
        p.linkedNotes.map (fun r => (r.titleSlug, r.hash))
          = (publish sha st body now).written.dropLast ∧
        ∀ r ∈ p.linkedNotes,
          (alGet (publish sha st body now).store.notes (r.titleSlug, r.hash)).isSome := by
  constructor
  · rw [publish_written, publish_titleSlug, publish_hash, List.getLast?_concat]
  · refine ⟨_, by
      rw [publish_store_notes, publish_titleSlug, publish_hash]
      exact alGet_alPut_self _ _ _, ?_, ?_⟩
    · rw [publish_written, List.dropLast_concat]
    · intro r hr
      rw [publish_store_notes]
      apply alPut_preserves_isSome
      exact publishLinkedAll_refs_isSome body.linkedNotes st r hr

theorem alGet_alDel_cases {κ α : Type} [DecidableEq κ] {l : List (κ × α)} {key k : κ} {n : α}
    (h : alGet (alDel l key) k = some n) : k ≠ key ∧ alGet l k = some n := by
  by_cases hk : k = key
  · subst hk
    rw [alGet_alDel_self] at h
    cases h
  · rw [alGet_alDel_ne _ _ _ hk] at h
    exact ⟨hk, h⟩

/-- Index consistency for one vault: every index entry is backed by a stored
note, every stored note is indexed, no two index entries share a
`(titleSlug, hash)` pair, and every stored note belongs to the vault. -/
def IndexConsistent (vault : String) (st : Store) : Prop :=
  (∀ e ∈ (alGet st.indexes vault).getD [],
      ∃ n, alGet st.notes (e.titleSlug, e.hash) = some n) ∧
  (∀ k n, alGet st.notes k = some n →
      ∃ e ∈ (alGet st.indexes vault).getD [], (e.titleSlug, e.hash) = k) ∧
  ((alGet st.indexes vault).getD []).Pairwise
      (fun e1 e2 => ¬(e1.titleSlug = e2.titleSlug ∧ e1.hash = e2.hash)) ∧
  (∀ k n, alGet st.notes k = some n → n.vault = vault)

theorem IndexConsistent_put_step {vault : String} {st st' : Store}
    {key : String × String} {n : StoredNote} {e : IndexEntry}
    (hnotes : st'.notes = alPut st.notes key n)
    (hidx : st'.indexes = addToIndex st.indexes vault e)
    (hk : (e.titleSlug, e.hash) = key) (hv : n.vault = vault)
    (h : IndexConsistent vault st) : IndexConsistent vault st' := by
  obtain ⟨ha, hb, hc, hd⟩ := h
  have hidx' : (alGet st'.indexes vault).getD []
      = e :: ((alGet st.indexes vault).getD []).filter
          (fun x => decide (¬(x.titleSlug = e.titleSlug ∧ x.hash = e.hash))) := by
    rw [hidx]
    unfold addToIndex
    rw [alGet_alPut_self]
    rfl
  refine ⟨?_, ?_, ?_, ?_⟩
  · intro e' he'
    rw [hidx'] at he'
    rw [hnotes]
    rcases List.mem_cons.mp he' with he0 | he''
    · subst he0
      exact ⟨n, by rw [hk, alGet_alPut_self]⟩
    · have he3 := List.mem_of_mem_filter he''
      obtain ⟨n', hn'⟩ := ha e' he3
      by_cases hke : (e'.titleSlug, e'.hash) = key
      · exact ⟨n, by rw [hke, alGet_alPut_self]⟩
      · exact ⟨n', by rw [alGet_alPut_ne _ _ _ _ hke, hn']⟩
  · intro k nk hget
    rw [hnotes] at hget
    rw [hidx']
    by_cases hkk : k = key
    · exact ⟨e, List.mem_cons_self _ _, hk.trans hkk.symm⟩
    · rw [alGet_alPut_ne _ _ _ _ hkk] at hget
      obtain ⟨e', he', hke'⟩ := hb k nk hget
      refine ⟨e', List.mem_cons_of_mem _ ?_, hke'⟩
      rw [List.mem_filter]
      refine ⟨he', ?_⟩
      simp only [decide_eq_true_eq]
      rintro ⟨h1, h2⟩
      apply hkk
      rw [← hke', ← hk, h1, h2]
  · rw [hidx']
    refine List.Pairwise.cons ?_ (List.Pairwise.filter _ hc)
    intro e' he'
    rw [List.mem_filter] at he'
    have hne := of_decide_eq_true he'.2
    rintro ⟨h1, h2⟩
    exact hne ⟨h1.symm, h2.symm⟩
  · intro k nk hget
    rw [hnotes] at hget
    by_cases hkk : k = key
    · subst hkk
      rw [alGet_alPut_self] at hget
      cases hget
      exact hv
    · rw [alGet_alPut_ne _ _ _ _ hkk] at hget
      exact hd k nk hget

theorem IndexConsistent_deleteNote {vault titleSlug hash : String} {st : Store}
    (h : IndexConsistent vault st) :
    IndexConsistent vault (deleteNote st vault titleSlug hash) := by
  obtain ⟨ha, hb, hc, hd⟩ := h
  have hnotes : (deleteNote st vault titleSlug hash).notes
      = alDel st.notes (titleSlug, hash) := rfl
  have hidxdef : (deleteNote st vault titleSlug hash).indexes
      = removeFromIndex st.indexes vault titleSlug hash := rfl
  cases hcase : alGet st.indexes vault with
  | none =>
    have hidx' : (alGet (deleteNote st vault titleSlug hash).indexes vault).getD [] = [] := by
      rw [hidxdef]
      unfold removeFromIndex
      rw [hcase]
      rw [hcase]
      rfl
    refine ⟨?_, ?_, ?_, ?_⟩
    · intro e' he'
      rw [hidx'] at he'
      cases he'
    · intro k nk hget
      rw [hnotes] at hget
      obtain ⟨-, hget'⟩ := alGet_alDel_cases hget
      obtain ⟨e', he', -⟩ := hb k nk hget'
      rw [hcase] at he'
      cases he'
    · rw [hidx']
      exact List.Pairwise.nil
    · intro k nk hget
      rw [hnotes] at hget
      obtain ⟨-, hget'⟩ := alGet_alDel_cases hget
      exact hd k nk hget'
  | some idx =>
    have hidx' : (alGet (deleteNote st vault titleSlug hash).indexes vault).getD []
        = idx.filter (fun x => decide (¬(x.titleSlug = titleSlug ∧ x.hash = hash))) := by
      rw [hidxdef]
      unfold removeFromIndex
      rw [hcase]
      rw [alGet_alPut_self]
      rfl
    refine ⟨?_, ?_, ?_, ?_⟩
    · intro e' he'
      rw [hidx'] at he'
      rw [List.mem_filter] at he'
      obtain ⟨n', hn'⟩ := ha e' (by rw [hcase]; exact he'.1)
      have hne := of_decide_eq_true he'.2
      have hkne : (e'.titleSlug, e'.hash) ≠ (titleSlug, hash) := by
        intro hcon
        exact hne ⟨congrArg Prod.fst hcon, congrArg Prod.snd hcon⟩
      exact ⟨n', by rw [hnotes, alGet_alDel_ne _ _ _ hkne, hn']⟩
    · intro k nk hget
      rw [hnotes] at hget
      obtain ⟨hkne, hget'⟩ := alGet_alDel_cases hget
      obtain ⟨e', he', hke'⟩ := hb k nk hget'
      rw [hcase] at he'
      rw [hidx']
      refine ⟨e', ?_, hke'⟩
      rw [List.mem_filter]
      refine ⟨he', ?_⟩
      simp only [decide_eq_true_eq]
      rintro ⟨h1, h2⟩
      apply hkne
      rw [← hke', h1, h2]
    · rw [hidx']
      apply List.Pairwise.filter
      rw [hcase] at hc
      exact hc
    · intro k nk hget
      rw [hnotes] at hget
      obtain ⟨-, hget'⟩ := alGet_alDel_cases hget
      exact hd k nk hget'

/-- One API operation on a fixed vault: a publish (POST /api/share) or a
delete (DELETE /api/notes/...). -/
inductive VaultOp where
  | share (title content : String) (linkedNotes : List LinkedNote)
      (retentionDays : Option Int) (now : Int)
  | remove (titleSlug hash : String)

/-- Apply one operation of a single vault's session to the store. -/
def applyOp (sha : List Nat → List Nat) (vault : String) (st : Store) : VaultOp → Store
  | .share title content linkedNotes retentionDays now =>
      (publish sha st ⟨vault, title, content, linkedNotes, retentionDays⟩ now).store
  | .remove titleSlug hash => deleteNote st vault titleSlug hash

/-- Apply a sequence of operations, oldest first. -/
def applyOps (sha : List Nat → List Nat) (vault : String) (st : Store)
    (ops : List VaultOp) : Store :=
  ops.foldl (applyOp sha vault) st

/-- The empty R2 bucket. -/
def emptyStore : Store := { notes := [], indexes := [], images := [], themes := [] }

theorem IndexConsistent_publishLinkedNote {sha : List Nat → List Nat} {vault : String}
    {linked : LinkedNote} {now : Int} {st : Store} (h : IndexConsistent vault st) :
    IndexConsistent vault (publishLinkedNote sha st vault linked now).1 :=
  IndexConsistent_put_step (publishLinkedNote_fst_notes sha st vault linked now)
    (publishLinkedNote_fst_indexes sha st vault linked now) rfl rfl h

theorem IndexConsistent_publishLinkedAll {sha : List Nat → List Nat} {vault : String}
    {now : Int} :
    ∀ (links : List LinkedNote) (st : Store), IndexConsistent vault st →
      IndexConsistent vault (publishLinkedAll sha st vault links now).1
  | [], _, h => h
  | _ :: ls, _, h =>
    IndexConsistent_publishLinkedAll ls _ (IndexConsistent_publishLinkedNote h)

theorem IndexConsistent_publish {sha : List Nat → List Nat} {vault : String} {st : Store}
    {body : ShareRequest} {now : Int} (hbv : body.vault = vault)
    (h : IndexConsistent vault st) :
    IndexConsistent vault (publish sha st body now).store := by
  subst hbv
  exact IndexConsistent_put_step (publish_store_notes sha st body now)
    (publish_store_indexes sha st body now) rfl rfl
    (IndexConsistent_publishLinkedAll body.linkedNotes st h)

theorem IndexConsistent_applyOps {sha : List Nat → List Nat} {vault : String} :
    ∀ (ops : List VaultOp) (st : Store), IndexConsistent vault st →
      IndexConsistent vault (applyOps sha vault st ops)
  | [], _, h => h
  | op :: ops, st, h => by
    have hstep : IndexConsistent vault (applyOp sha vault st op) := by
      cases op with
      | share title content linkedNotes retentionDays now =>
        exact IndexConsistent_publish rfl h
      | remove titleSlug hash => exact IndexConsistent_deleteNote h
    exact IndexConsistent_applyOps ops (applyOp sha vault st op) hstep

theorem IndexConsistent_emptyStore (vault : String) : IndexConsistent vault emptyStore := by
  refine ⟨?_, ?_, ?_, ?_⟩
  · intro e he
    cases he
  · intro k n hget
    cases hget
  · exact List.Pairwise.nil
  · intro k n hget
    cases hget

/-- C1 as amended: when each publish's per-linked-note `addToIndex`
read-modify-writes are applied serially (one completing before the next
begins — the `applyOps`/`publish` model serializes the source's
`Promise.all`, see `publishLinkedAll`), then starting from an empty store,
after any sequence of publish and delete operations on one vault, that
vault's index holds exactly one entry per currently-live note and none for a
deleted note: every entry is backed by a stored note of the vault, every
stored note has an index entry, and no two entries share a
`(titleSlug, hash)` pair. Moreover `addToIndex` always removes every entry
with the fresh entry's `(titleSlug, hash)` pair and then prepends the fresh
entry, so a re-published note's entry moves to the front of the list.
Without the serialization the invariant fails: a realizable event-loop
schedule of a single publish loses a live linked note's index entry
(`C1_index_consistency_counterexample`). -/
theorem C1_index_consistency (sha : List Nat → List Nat) (vault : String)
    (ops : List VaultOp) (indexes : List (String × List IndexEntry)) (e : IndexEntry) :
    IndexConsistent vault (applyOps sha vault emptyStore ops) ∧
    alGet (addToIndex indexes vault e) vault
      = some (e :: ((alGet indexes vault).getD []).filter
          (fun n => decide (¬(n.titleSlug = e.titleSlug ∧ n.hash = e.hash)))) := by
  constructor
  · exact IndexConsistent_applyOps ops emptyStore (IndexConsistent_emptyStore vault)
  · unfold addToIndex
    rw [alGet_alPut_self]

/-! ### The scheduled semantics of the second Promise.all (index.ts 122-152)

Each linked-note task of the second `Promise.all` performs three awaited
store operations, in its own order: put the note object, then inside
`addToIndex` a get of `{vault}/index.json`, then a put of it. The worker is
single-threaded but yields at every `await`, so exactly the interleavings of
the tasks' operation sequences are realizable schedules. -/

/-- One awaited store operation of linked-note task `i`. -/
inductive LinkedTaskOp where
  | putNote (i : Nat)
  | indexRead (i : Nat)
  | indexWrite (i : Nat)
deriving DecidableEq, Repr

/-- The operations of task `i`, in the order its code awaits them. -/
def linkedTaskOps (i : Nat) : List LinkedTaskOp :=
  [LinkedTaskOp.putNote i, LinkedTaskOp.indexRead i, LinkedTaskOp.indexWrite i]

/-- A realizable event-loop schedule of the second Promise.all over `n`
linked-note tasks: all of the tasks' operations, each task's own three in
their program order. -/
def IsSchedule (n : Nat) (evs : List LinkedTaskOp) : Prop :=
  evs.Perm (((List.range n).map linkedTaskOps).flatten) ∧
  ∀ i < n, List.Sublist (linkedTaskOps i) evs

/-- Execution state of the Promise.all: the store plus, per task, the index
value its `addToIndex` read and has not yet written back. -/
structure PubExecState where
  store : Store
  indexReads : List (Nat × List IndexEntry)
deriving Repr

/-- One awaited operation of linked-note task `i` (index.ts lines 123-151).
The existing-record lookup that feeds `linkedCreatedAt` happened in the
FIRST Promise.all (lines 111-119), before any of these writes, so it reads
the pre-publish store `st0`. -/
def execLinkedOp (sha : List Nat → List Nat) (st0 : Store) (vault : String)
    (links : List LinkedNote) (now : Int) (s : PubExecState) :
    LinkedTaskOp → PubExecState
  | LinkedTaskOp.putNote i =>
    match links.get? i with
    | none => s
    | some linked =>
      let slug := slugify linked.title
      let hash := generateNoteHash sha vault linked.title
      let createdAt := ((alGet st0.notes (slug, hash)).map (fun n => n.createdAt)).getD now
      let linkedNote : StoredNote :=
        { vault := vault, titleSlug := slug, hash := hash, title := linked.title,
          content := linked.content, createdAt := createdAt, updatedAt := some now,
          linkedNotes := [], retentionDays := none }
      { s with store := { s.store with notes := alPut s.store.notes (slug, hash) linkedNote } }
  | LinkedTaskOp.indexRead i =>
    { s with indexReads := (i, (alGet s.store.indexes vault).getD []) :: s.indexReads }
  | LinkedTaskOp.indexWrite i =>
    match links.get? i with
    | none => s
    | some linked =>
      let slug := slugify linked.title
      let hash := generateNoteHash sha vault linked.title
      let createdAt := ((alGet st0.notes (slug, hash)).map (fun n => n.createdAt)).getD now
      let e : IndexEntry :=
        { titleSlug := slug, hash := hash, title := linked.title, createdAt := createdAt }
      let idx := (alGet s.indexReads i).getD []
      let idx' := e :: idx.filter
        (fun x => decide (¬(x.titleSlug = e.titleSlug ∧ x.hash = e.hash)))
      { s with store := { s.store with indexes := alPut s.store.indexes vault idx' } }

/-- POST /api/share with the linked-note tasks driven by an explicit
schedule of their awaited operations, followed by the sequential primary
part (index.ts lines 155-185). The serialized `publish` model corresponds
to the schedule task 0; task 1; ...; other valid schedules are equally
realizable. -/
def publishScheduled (sha : List Nat → List Nat) (st : Store) (body : ShareRequest)
    (now : Int) (evs : List LinkedTaskOp) : Store :=
  let s1 := evs.foldl (execLinkedOp sha st body.vault body.linkedNotes now)
    { store := st, indexReads := [] }
  let titleSlug := slugify body.title
  let hash := generateNoteHash sha body.vault body.title
  let createdAt := ((alGet s1.store.notes (titleSlug, hash)).map
    (fun n => n.createdAt)).getD now
  let note : StoredNote :=
    { vault := body.vault, titleSlug := titleSlug, hash := hash,
      title := body.title, content := body.content,
      createdAt := createdAt, updatedAt := some now,
      linkedNotes := body.linkedNotes.map (fun l =>
        { titleSlug := slugify l.title, hash := generateNoteHash sha body.vault l.title }),
      retentionDays := some (jsOrZero body.retentionDays) }
  let noteEntry : IndexEntry :=
    { titleSlug := titleSlug, hash := hash, title := body.title,
      createdAt := note.createdAt }
  let st2 := { s1.store with notes := alPut s1.store.notes (titleSlug, hash) note }
  { st2 with indexes := addToIndex st2.indexes body.vault noteEntry }

/-- The share request of the lost-update scenario: one publish of note "p"
with two linked notes "a" and "b" into vault "v". -/
def lostUpdateBody : ShareRequest :=
  { vault := "v", title := "p", content := "",
    linkedNotes := [{ title := "a", content := "" }, { title := "b", content := "" }],
    retentionDays := none }

/-- The lost-update schedule: both tasks write their note objects, both then
read the (still empty) index, then both write it — task 1's write never saw
task 0's entry. Every task's operations are in program order, so this is a
realizable event-loop schedule (`IsSchedule 2`). -/
def lostUpdateSchedule : List LinkedTaskOp :=
  [LinkedTaskOp.putNote 0, LinkedTaskOp.putNote 1,
   LinkedTaskOp.indexRead 0, LinkedTaskOp.indexRead 1,
   LinkedTaskOp.indexWrite 0, LinkedTaskOp.indexWrite 1]

/-- The store after that single publish, from the empty store, under the
lost-update schedule (digest function as in the C2 witness). -/
def lostUpdateState : Store :=
  publishScheduled (fun _ => List.range 32) emptyStore lostUpdateBody 0 lostUpdateSchedule

/-- On the serialized schedule (task 0 completely before task 1), the
scheduled semantics agrees with the serialized `publish` model. -/
theorem publishScheduled_serialized_demo :
    publishScheduled (fun _ => List.range 32) emptyStore lostUpdateBody 0
      [LinkedTaskOp.putNote 0, LinkedTaskOp.indexRead 0, LinkedTaskOp.indexWrite 0,
       LinkedTaskOp.putNote 1, LinkedTaskOp.indexRead 1, LinkedTaskOp.indexWrite 1]
    = (publish (fun _ => List.range 32) emptyStore lostUpdateBody 0).store := by
  decide

/-- The record the lost-update schedule stores for linked note "a". -/
def lostUpdateNoteA : StoredNote :=
  { vault := "v", titleSlug := "a", hash := "00010203", title := "a",
    content := "", createdAt := 0, updatedAt := some 0, linkedNotes := [],
    retentionDays := none }

/-- Counterexample to C1 as stated: the lost-update schedule is a realizable
schedule of the source's Promise.all, and after this single publish the
linked note "a" is stored (live) while the vault index "v" holds no entry
for it — the index does not contain exactly one entry per currently-live
note, so `IndexConsistent` fails. -/
theorem C1_index_consistency_counterexample :
    IsSchedule 2 lostUpdateSchedule ∧
    alGet lostUpdateState.notes ("a", "00010203") = some lostUpdateNoteA ∧
    (∀ e ∈ (alGet lostUpdateState.indexes "v").getD [],
      ¬(e.titleSlug = "a" ∧ e.hash = "00010203")) ∧
    ¬ IndexConsistent "v" lostUpdateState := by
  have hidx : (alGet lostUpdateState.indexes "v").getD []
      = [{ titleSlug := "p", hash := "00010203", title := "p", createdAt := 0 },
         { titleSlug := "b", hash := "00010203", title := "b", createdAt := 0 }] := by
    decide
  refine ⟨⟨by decide, by decide⟩, by decide, ?_, ?_⟩
  · intro e he
    rw [hidx] at he
    rcases List.mem_cons.mp he with h0 | he'
    · subst h0
      decide
    · rcases List.mem_cons.mp he' with h1 | he''
      · subst h1
        decide
      · cases he''
  · intro h
    obtain ⟨-, hb, -, -⟩ := h
    obtain ⟨e, he, hke⟩ := hb ("a", "00010203") lostUpdateNoteA (by decide)
    rw [hidx] at he
    rcases List.mem_cons.mp he with h0 | he'
    · subst h0
      exact absurd hke (by decide)
    · rcases List.mem_cons.mp he' with h1 | he''
      · subst h1
        exact absurd hke (by decide)
      · cases he''

/-! ## Retention Sweeper: cleanupExpiredNotes (src/index.ts lines 414-453) -/

/-- Milliseconds per day: in UTC, `expiryDate.setDate(getDate() +
retentionDays)` advances the timestamp by exactly `retentionDays * 86400000`
milliseconds. -/
def msPerDay : Int := 86400000

/-- The per-note test of `cleanupExpiredNotes`: skipped when
`!note.retentionDays || note.retentionDays <= 0` (absent, zero or negative);
otherwise the note is expired when `now > new Date(note.updatedAt ||
note.createdAt) + retentionDays` days, strictly. -/
def noteExpired (note : StoredNote) (now : Int) : Bool :=
  match note.retentionDays with
  | none => false
  | some r =>
    if r ≤ 0 then false
    else decide (now > (note.updatedAt.getD note.createdAt) + r * msPerDay)

/-- The page cap of one `bucket.list` call: R2 returns at most 1000 keys per
page. The sweep's images listing (index.ts line 437) is a single `list`
call whose `truncated` flag is never read — unlike the notes listing, which
loops on its cursor — so only this first page of image keys is deleted. -/
def R2_LIST_LIMIT : Nat := 1000

/-- The single page returned by `list({ prefix: images/{hash}/ })`: the
first `R2_LIST_LIMIT` image keys under the prefix. -/
def listImagesPage (images : List (String × String)) (hash : String) :
    List (String × String) :=
  (images.filter (fun img => decide (img.1 = hash))).take R2_LIST_LIMIT

/-- One iteration of the cleanup loop at the listed key: re-`get` the note
(skip a missing object), skip unless expired, else delete the note object,
the image objects of the SINGLE listed page under `images/{note.hash}/`
(index.ts lines 437-442: one `list` call, its `truncated` flag unread, so
images beyond the first page survive the sweep), and the note's entry in its
vault's index (the deletions run under `Promise.all`; they touch disjoint
components of the store). -/
def sweepNote (st : Store) (key : String × String) (now : Int) : Store :=
  match alGet st.notes key with
  | none => st
  | some note =>
    if noteExpired note now then
      { notes := alDel st.notes key,
        indexes := removeFromIndex st.indexes note.vault note.titleSlug note.hash,
        images := st.images.filter
          (fun img => decide (img ∉ listImagesPage st.images note.hash)),
        themes := st.themes }
    else st

/-- `cleanupExpiredNotes`: page through the listing of the `notes/` prefix
(the note keys present when the sweep starts) and process each in turn. -/
def cleanupExpiredNotes (st : Store) (now : Int) : Store :=
  (st.notes.map (fun p => p.1)).foldl (fun s k => sweepNote s k now) st

theorem sweepNote_of_get_none {st : Store} {k : String × String} {now : Int}
    (h : alGet st.notes k = none) : sweepNote st k now = st := by
  unfold sweepNote
  rw [h]

theorem sweepNote_of_not_expired {st : Store} {k : String × String} {now : Int}
    {note : StoredNote} (h : alGet st.notes k = some note)
    (hne : noteExpired note now = false) : sweepNote st k now = st := by
  unfold sweepNote
  rw [h]
  simp [hne]

theorem sweepNote_of_expired {st : Store} {k : String × String} {now : Int}
    {note : StoredNote} (h : alGet st.notes k = some note)
    (hexp : noteExpired note now = true) :
    sweepNote st k now
      = { notes := alDel st.notes k,
          indexes := removeFromIndex st.indexes note.vault note.titleSlug note.hash,
          images := st.images.filter
            (fun img => decide (img ∉ listImagesPage st.images note.hash)),
          themes := st.themes } := by
  unfold sweepNote
  rw [h]
  simp [hexp]

theorem sweepNote_get_preserved {st : Store} {k' : String × String} {now : Int}
    {k : String × String} {note : StoredNote} (h : alGet st.notes k = some note)
    (hne : noteExpired note now = false) :
    alGet (sweepNote st k' now).notes k = some note := by
  cases hg : alGet st.notes k' with
  | none =>
    rw [sweepNote_of_get_none hg]
    exact h
  | some note' =>
    cases hexp : noteExpired note' now with
    | false =>
      rw [sweepNote_of_not_expired hg hexp]
      exact h
    | true =>
      rw [sweepNote_of_expired hg hexp]
      by_cases hkk : k = k'
      · subst hkk
        rw [h] at hg
        cases hg
        rw [hexp] at hne
        cases hne
      · show alGet (alDel st.notes k') k = some note
        rw [alGet_alDel_ne _ _ _ hkk]
        exact h

theorem sweepNote_get_ne {st : Store} {k' : String × String} {now : Int}
    {k : String × String} (hkk : k ≠ k') :
    alGet (sweepNote st k' now).notes k = alGet st.notes k := by
  cases hg : alGet st.notes k' with
  | none => rw [sweepNote_of_get_none hg]
  | some note' =>
    cases hexp : noteExpired note' now with
    | false => rw [sweepNote_of_not_expired hg hexp]
    | true =>
      rw [sweepNote_of_expired hg hexp]
      show alGet (alDel st.notes k') k = alGet st.notes k
      rw [alGet_alDel_ne _ _ _ hkk]

/-- What a deleted note loses unconditionally: its note object and its entry
in its vault's index. -/
def SweptProps (st : Store) (key : String × String) (note : StoredNote) : Prop :=
  alGet st.notes key = none ∧
  (∀ e ∈ (alGet st.indexes note.vault).getD [],
      ¬(e.titleSlug = note.titleSlug ∧ e.hash = note.hash))

theorem removeFromIndex_subset {idxs : List (String × List IndexEntry)}
    {v' s' h' v : String} {e : IndexEntry}
    (he : e ∈ (alGet (removeFromIndex idxs v' s' h') v).getD []) :
    e ∈ (alGet idxs v).getD [] := by
  unfold removeFromIndex at he
  cases hg : alGet idxs v' with
  | none =>
    rw [hg] at he
    exact he
  | some idx =>
    rw [hg] at he
    by_cases hv : v = v'
    · subst hv
      rw [alGet_alPut_self] at he
      simp only [Option.getD_some] at he
      rw [hg]
      exact List.mem_of_mem_filter he
    · rw [alGet_alPut_ne _ _ _ _ hv] at he
      exact he

theorem SweptProps_sweepNote {st : Store} {k' : String × String} {now : Int}
    {key : String × String} {note : StoredNote} (h : SweptProps st key note) :
    SweptProps (sweepNote st k' now) key note := by
  obtain ⟨h1, h3⟩ := h
  cases hg : alGet st.notes k' with
  | none =>
    rw [sweepNote_of_get_none hg]
    exact ⟨h1, h3⟩
  | some note' =>
    cases hexp : noteExpired note' now with
    | false =>
      rw [sweepNote_of_not_expired hg hexp]
      exact ⟨h1, h3⟩
    | true =>
      rw [sweepNote_of_expired hg hexp]
      refine ⟨?_, ?_⟩
      · show alGet (alDel st.notes k') key = none
        by_cases hkk : key = k'
        · subst hkk
          exact alGet_alDel_self _ _
        · rw [alGet_alDel_ne _ _ _ hkk]
          exact h1
      · intro e he
        exact h3 e (removeFromIndex_subset he)

theorem SweptProps_establish {st : Store} {key : String × String} {note : StoredNote}
    {now : Int} (hget : alGet st.notes key = some note)
    (hexp : noteExpired note now = true) :
    SweptProps (sweepNote st key now) key note := by
  rw [sweepNote_of_expired hget hexp]
  refine ⟨alGet_alDel_self _ _, ?_⟩
  intro e he
  have he' : e ∈ (alGet (removeFromIndex st.indexes note.vault note.titleSlug note.hash)
      note.vault).getD [] := he
  unfold removeFromIndex at he'
  cases hg : alGet st.indexes note.vault with
  | none =>
    rw [hg] at he'
    rw [hg] at he'
    cases he'
  | some idx =>
    rw [hg] at he'
    rw [alGet_alPut_self] at he'
    simp only [Option.getD_some] at he'
    exact of_decide_eq_true (List.mem_filter.mp he').2

theorem alGet_mem_keys {κ α : Type} [DecidableEq κ] {l : List (κ × α)} {k : κ} {v : α}
    (h : alGet l k = some v) : k ∈ l.map (fun p => p.1) := by
  unfold alGet at h
  cases hf : l.find? (fun p => decide (p.1 = k)) with
  | none =>
    rw [hf] at h
    cases h
  | some p =>
    have hp := List.mem_of_find?_eq_some hf
    have hpk := List.find?_some hf
    simp only [decide_eq_true_eq] at hpk
    exact hpk ▸ List.mem_map_of_mem _ hp

theorem sweepFold_establishes {now : Int} {key : String × String} {note : StoredNote} :
    ∀ (keys : List (String × String)) (st : Store),
      ((key ∈ keys ∧ alGet st.notes key = some note ∧ noteExpired note now = true)
        ∨ SweptProps st key note) →
      SweptProps (keys.foldl (fun s k => sweepNote s k now) st) key note
  | [], _, h => by
    rcases h with ⟨hmem, -, -⟩ | hp
    · cases hmem
    · exact hp
  | k' :: ks, st, h => by
    rw [List.foldl_cons]
    rcases h with ⟨hmem, hget, hexp⟩ | hp
    · by_cases hkk : key = k'
      · subst hkk
        exact sweepFold_establishes ks _ (Or.inr (SweptProps_establish hget hexp))
      · rcases List.mem_cons.mp hmem with h0 | hmem'
        · exact absurd h0 hkk
        · refine sweepFold_establishes ks _ (Or.inl ⟨hmem', ?_, hexp⟩)
          rw [sweepNote_get_ne hkk]
          exact hget
    · exact sweepFold_establishes ks _ (Or.inr (SweptProps_sweepNote hp))

theorem sweepFold_preserves {now : Int} {k : String × String} {note : StoredNote}
    (hne : noteExpired note now = false) :
    ∀ (keys : List (String × String)) (st : Store), alGet st.notes k = some note →
      alGet ((keys.foldl (fun s k' => sweepNote s k' now) st)).notes k = some note
  | [], _, h => h
  | k' :: ks, st, h => by
    rw [List.foldl_cons]
    exact sweepFold_preserves hne ks _ (sweepNote_get_preserved h hne)

theorem cleanup_preserves_unexpired {st : Store} {now : Int} {k : String × String}
    {note : StoredNote} (h : alGet st.notes k = some note)
    (hne : noteExpired note now = false) :
    alGet (cleanupExpiredNotes st now).notes k = some note :=
  sweepFold_preserves hne _ st h

theorem cleanup_swept {st : Store} {now : Int} {key : String × String} {note : StoredNote}
    (hget : alGet st.notes key = some note) (hexp : noteExpired note now = true) :
    SweptProps (cleanupExpiredNotes st now) key note :=
  sweepFold_establishes _ st (Or.inl ⟨alGet_mem_keys hget, hget, hexp⟩)

/-- No image object under `images/{hash}/` remains in the store. -/
def ImagesCleared (st : Store) (hash : String) : Prop :=
  ∀ img ∈ st.images, img.1 ≠ hash

theorem sweepNote_images_sublist (st : Store) (k : String × String) (now : Int) :
    List.Sublist (sweepNote st k now).images st.images := by
  cases hg : alGet st.notes k with
  | none =>
    rw [sweepNote_of_get_none hg]
  | some note' =>
    cases hexp : noteExpired note' now with
    | false =>
      rw [sweepNote_of_not_expired hg hexp]
    | true =>
      rw [sweepNote_of_expired hg hexp]
      exact List.filter_sublist _

theorem ImagesCleared_sweepNote {st : Store} {k : String × String} {now : Int}
    {hash : String} (h : ImagesCleared st hash) :
    ImagesCleared (sweepNote st k now) hash :=
  fun img himg => h img ((sweepNote_images_sublist st k now).mem himg)

theorem ImagesCleared_establish {st : Store} {key : String × String} {note : StoredNote}
    {now : Int} (hget : alGet st.notes key = some note)
    (hexp : noteExpired note now = true)
    (hfit : (st.images.filter (fun img => decide (img.1 = note.hash))).length
      ≤ R2_LIST_LIMIT) :
    ImagesCleared (sweepNote st key now) note.hash := by
  rw [sweepNote_of_expired hget hexp]
  intro img himg
  have h2 := List.mem_filter.mp himg
  have hnotin : img ∉ listImagesPage st.images note.hash := of_decide_eq_true h2.2
  intro heq
  apply hnotin
  unfold listImagesPage
  rw [List.take_of_length_le hfit]
  exact List.mem_filter.mpr ⟨h2.1, decide_eq_true heq⟩

theorem sweepNote_count_le (st : Store) (k : String × String) (now : Int) (hash : String) :
    ((sweepNote st k now).images.filter (fun img => decide (img.1 = hash))).length
      ≤ (st.images.filter (fun img => decide (img.1 = hash))).length :=
  (((sweepNote_images_sublist st k now).filter _).length_le)

theorem imagesFold_establishes {now : Int} {key : String × String} {note : StoredNote} :
    ∀ (keys : List (String × String)) (st : Store),
      ((key ∈ keys ∧ alGet st.notes key = some note ∧ noteExpired note now = true ∧
          (st.images.filter (fun img => decide (img.1 = note.hash))).length
            ≤ R2_LIST_LIMIT)
        ∨ ImagesCleared st note.hash) →
      ImagesCleared ((keys.foldl (fun s k => sweepNote s k now) st)) note.hash
  | [], _, h => by
    rcases h with ⟨hmem, -, -, -⟩ | hp
    · cases hmem
    · exact hp
  | k' :: ks, st, h => by
    rw [List.foldl_cons]
    rcases h with ⟨hmem, hget, hexp, hfit⟩ | hp
    · by_cases hkk : key = k'
      · subst hkk
        exact @imagesFold_establishes now key note ks _
          (Or.inr (ImagesCleared_establish hget hexp hfit))
      · rcases List.mem_cons.mp hmem with h0 | hmem'
        · exact absurd h0 hkk
        · refine imagesFold_establishes ks _ (Or.inl ⟨hmem', ?_, hexp, ?_⟩)
          · rw [sweepNote_get_ne hkk]
            exact hget
          · exact Nat.le_trans (sweepNote_count_le st k' now note.hash) hfit
    · exact @imagesFold_establishes now key note ks _ (Or.inr (ImagesCleared_sweepNote hp))

theorem cleanup_images_cleared {st : Store} {now : Int} {key : String × String}
    {note : StoredNote} (hget : alGet st.notes key = some note)
    (hexp : noteExpired note now = true)
    (hfit : (st.images.filter (fun img => decide (img.1 = note.hash))).length
      ≤ R2_LIST_LIMIT) :
    ImagesCleared (cleanupExpiredNotes st now) note.hash :=
  imagesFold_establishes _ st (Or.inl ⟨alGet_mem_keys hget, hget, hexp, hfit⟩)

/-- C5 as amended: the sweep never deletes a note that is not expired — in
particular a note whose `retentionDays` is absent, zero or negative survives
any sweep, whatever its age; a note with `retentionDays = N > 0` is expired
exactly when `now` is strictly after `(updatedAt if present, else createdAt)
+ N` days; a deleted note loses its note object and its vault-index entry;
and every image object under `images/{hash}/` is removed WHEN the prefix
holds at most one list page of image objects (`R2_LIST_LIMIT` = 1000) — the
images listing is a single un-looped `list` call, so images beyond the first
page survive (`C5_retention_sweep_counterexample`). -/
theorem C5_retention_sweep (st : Store) (now : Int) (key : String × String)
    (note : StoredNote) (hget : alGet st.notes key = some note) :
    (noteExpired note now = false →
      alGet (cleanupExpiredNotes st now).notes key = some note) ∧
    (noteExpired note now = true →
      alGet (cleanupExpiredNotes st now).notes key = none ∧
      (∀ e ∈ (alGet (cleanupExpiredNotes st now).indexes note.vault).getD [],
        ¬(e.titleSlug = note.titleSlug ∧ e.hash = note.hash))) ∧
    (noteExpired note now = true →
      (st.images.filter (fun img => decide (img.1 = note.hash))).length ≤ R2_LIST_LIMIT →
      ∀ img ∈ (cleanupExpiredNotes st now).images, img.1 ≠ note.hash) ∧
    noteExpired note now
      = (match note.retentionDays with
         | none => false
         | some r => decide (0 < r)
            && decide (note.updatedAt.getD note.createdAt + r * msPerDay < now)) := by
  refine ⟨fun hne => cleanup_preserves_unexpired hget hne,
    fun hexp => cleanup_swept hget hexp,
    fun hexp hfit => cleanup_images_cleared hget hexp hfit, ?_⟩
  cases hr : note.retentionDays with
  | none =>
    unfold noteExpired
    rw [hr]
  | some r =>
    unfold noteExpired
    rw [hr]
    show (if r ≤ 0 then false
        else decide (now > note.updatedAt.getD note.createdAt + r * msPerDay))
      = (decide (0 < r) && decide (note.updatedAt.getD note.createdAt + r * msPerDay < now))
    by_cases hle : r ≤ 0
    · rw [if_pos hle]
      have h0 : decide (0 < r) = false := by
        simp only [decide_eq_false_iff_not, not_lt]
        omega
      rw [h0, Bool.false_and]
    · rw [if_neg hle]
      have h0 : decide (0 < r) = true := by
        simp only [decide_eq_true_eq]
        omega
      rw [h0, Bool.true_and]

/-- A note already past its one-day retention, for the C5 witness. -/
def sweepDemoNote : StoredNote :=
  { vault := "v", titleSlug := "a", hash := "h1", title := "A", content := "",
    createdAt := 0, updatedAt := none, linkedNotes := [], retentionDays := some 1 }

/-- A one-note store with an index entry and an image, for the C5 witness. -/
def sweepDemoStore : Store :=
  { notes := [(("a", "h1"), sweepDemoNote)],
    indexes := [("v", [{ titleSlug := "a", hash := "h1", title := "A", createdAt := 0 }])],
    images := [("h1", "img.webp")],
    themes := [] }

/-- Witness for C5: two days after creation, the sweep removes the one-day
note together with its index entry and its (single page of) images. -/
theorem C5_retention_sweep_witness :
    alGet (cleanupExpiredNotes sweepDemoStore 172800000).notes ("a", "h1") = none ∧
    (∀ img ∈ (cleanupExpiredNotes sweepDemoStore 172800000).images, img.1 ≠ "h1") := by
  have h := C5_retention_sweep sweepDemoStore 172800000 ("a", "h1") sweepDemoNote (by decide)
  exact ⟨(h.2.1 (by decide)).1, h.2.2.1 (by decide) (by decide)⟩

/-- The i-th image object under `images/h1/` (filename of i characters). -/
def overflowImage (i : Nat) : String × String :=
  ("h1", String.mk (List.replicate i 'x'))

/-- 1001 image objects under `images/h1/`: one more than a list page. -/
def overflowImages : List (String × String) :=
  (List.range 1001).map overflowImage

/-- `sweepDemoNote`'s store with 1001 images under its hash prefix. -/
def overflowStore : Store :=
  { notes := [(("a", "h1"), sweepDemoNote)], indexes := [], images := overflowImages,
    themes := [] }

set_option maxRecDepth 8192 in
/-- Counterexample to C5 as stated: with 1001 image objects under the
expired note's prefix `images/h1/`, the sweep deletes the note, but the
single un-looped list page covers only the first 1000 image keys, so the
image object `overflowImage 1000` under the deleted note's prefix survives
the sweep — not every image object under `images/{hash}/` is removed. -/
theorem C5_retention_sweep_counterexample :
    alGet (cleanupExpiredNotes overflowStore 172800000).notes ("a", "h1") = none ∧
    overflowImage 1000 ∈ (cleanupExpiredNotes overflowStore 172800000).images ∧
    (overflowImage 1000).1 = "h1" := by
  have hget : alGet overflowStore.notes ("a", "h1") = some sweepDemoNote := by decide
  have hexp : noteExpired sweepDemoNote 172800000 = true := by decide
  have hclean : cleanupExpiredNotes overflowStore 172800000
      = sweepNote overflowStore ("a", "h1") 172800000 := rfl
  have hsweep := sweepNote_of_expired hget hexp
  refine ⟨?_, ?_, rfl⟩
  · rw [hclean, hsweep]
    exact alGet_alDel_self _ _
  · rw [hclean, hsweep]
    have himgs : overflowStore.images = overflowImages := rfl
    rw [himgs, List.mem_filter]
    refine ⟨List.mem_map.mpr ⟨1000, List.mem_range.mpr (by omega), rfl⟩, ?_⟩
    show decide (overflowImage 1000 ∉ listImagesPage overflowImages sweepDemoNote.hash) = true
    rw [decide_eq_true_eq]
    have hfilter : overflowImages.filter (fun img => decide (img.1 = sweepDemoNote.hash))
        = overflowImages := by
      apply List.filter_eq_self.mpr
      intro x hx
      obtain ⟨i, -, rfl⟩ := List.mem_map.mp hx
      exact decide_eq_true rfl
    unfold listImagesPage
    rw [hfilter]
    have htake : overflowImages.take R2_LIST_LIMIT = (List.range 1000).map overflowImage := by
      show ((List.range 1001).map overflowImage).take 1000 = _
      rw [← List.map_take, List.take_range]
      norm_num
    rw [htake]
    intro hmem
    obtain ⟨i, hi, heqi⟩ := List.mem_map.mp hmem
    rw [List.mem_range] at hi
    have hsnd : String.mk (List.replicate i 'x') = String.mk (List.replicate 1000 'x') :=
      congrArg Prod.snd heqi
    have hlen := congrArg (fun s => s.data.length) hsnd
    simp only [data_mk, List.length_replicate] at hlen
    omega

theorem publishLinkedNote_retention_self (sha : List Nat → List Nat) (st : Store)
    (vault : String) (linked : LinkedNote) (now : Int) :
    (alGet (publishLinkedNote sha st vault linked now).1.notes
      (slugify linked.title, generateNoteHash sha vault linked.title)).map
        (fun n => n.retentionDays) = some none := by
  rw [publishLinkedNote_fst_notes, alGet_alPut_self]
  rfl

theorem publishLinkedNote_retention_preserved {sha : List Nat → List Nat} {st : Store}
    {vault : String} {linked : LinkedNote} {now : Int} {k : String × String}
    (h : (alGet st.notes k).map (fun n => n.retentionDays) = some none) :
    (alGet (publishLinkedNote sha st vault linked now).1.notes k).map
      (fun n => n.retentionDays) = some none := by
  by_cases hk : k = (slugify linked.title, generateNoteHash sha vault linked.title)
  · subst hk
    exact publishLinkedNote_retention_self sha st vault linked now
  · rw [publishLinkedNote_fst_notes, alGet_alPut_ne _ _ _ _ hk]
    exact h

theorem publishLinkedAll_retention_preserved {sha : List Nat → List Nat} {vault : String}
    {now : Int} {k : String × String} :
    ∀ (links : List LinkedNote) (st : Store),
      (alGet st.notes k).map (fun n => n.retentionDays) = some none →
      (alGet (publishLinkedAll sha st vault links now).1.notes k).map
        (fun n => n.retentionDays) = some none
  | [], _, h => h
  | _ :: ls, _, h =>
    publishLinkedAll_retention_preserved ls _ (publishLinkedNote_retention_preserved h)

theorem publishLinkedAll_refs_retention_none {sha : List Nat → List Nat} {vault : String}
    {now : Int} :
    ∀ (links : List LinkedNote) (st : Store),
      ∀ r ∈ (publishLinkedAll sha st vault links now).2,
        (alGet (publishLinkedAll sha st vault links now).1.notes (r.titleSlug, r.hash)).map
          (fun n => n.retentionDays) = some none
  | [], _, _, hr => absurd hr (by simp [publishLinkedAll])
  | l :: ls, st, r, hr => by
    have hshape2 : (publishLinkedAll sha st vault (l :: ls) now).2
        = (publishLinkedNote sha st vault l now).2
          :: (publishLinkedAll sha (publishLinkedNote sha st vault l now).1 vault ls now).2 := rfl
    have hshape1 : (publishLinkedAll sha st vault (l :: ls) now).1
        = (publishLinkedAll sha (publishLinkedNote sha st vault l now).1 vault ls now).1 := rfl
    rw [hshape1]
    rw [hshape2] at hr
    rcases List.mem_cons.mp hr with hr0 | hr'
    · subst hr0
      exact publishLinkedAll_retention_preserved ls _
        (publishLinkedNote_retention_self sha st vault l now)
    · exact publishLinkedAll_refs_retention_none ls _ r hr'

theorem noteExpired_of_retention_none {note : StoredNote} {now : Int}
    (h : note.retentionDays = none) : noteExpired note now = false := by
  unfold noteExpired
  rw [h]

/-- C10 (implicit): every linked-note record written by the share path has no
`retentionDays` field; the retention sweep skips every note whose
`retentionDays` is absent; hence a note that was only ever stored as a linked
note is never deleted by the sweep, whatever its age and the sweep time. -/
theorem C10_linked_notes_never_expire (sha : List Nat → List Nat) (st : Store)
    (vault : String) (links : List LinkedNote) (now : Int)
    (stAny : Store) (nowSweep : Int) (k : String × String) (note : StoredNote) :
    (∀ r ∈ (publishLinkedAll sha st vault links now).2,
      (alGet (publishLinkedAll sha st vault links now).1.notes (r.titleSlug, r.hash)).map
        (fun n => n.retentionDays) = some none) ∧
    (note.retentionDays = none → noteExpired note nowSweep = false) ∧
    (alGet stAny.notes k = some note → note.retentionDays = none →
      alGet (cleanupExpiredNotes stAny nowSweep).notes k = some note) := by
  refine ⟨publishLinkedAll_refs_retention_none links st, ?_, ?_⟩
  · exact noteExpired_of_retention_none
  · intro hget hnone
    exact cleanup_preserves_unexpired hget (noteExpired_of_retention_none hnone)

/-! ## Theme Store: PUT /api/theme (src/index.ts lines 64-93) -/

/-- The two theme modes of `ThemeSyncRequest.mode`. -/
inductive ThemeMode where
  | light
  | dark
deriving DecidableEq, Repr

/-- The slot of a mode inside a dual record. -/
def modeSlot (mode : ThemeMode) (d : DualThemeSettings) : Option ThemeSettings :=
  match mode with
  | .light => d.light
  | .dark => d.dark

/-- The opposite mode. -/
def otherMode : ThemeMode → ThemeMode
  | .light => .dark
  | .dark => .light

/-- PUT /api/theme after validation: read the existing dual record (or start
from `{}`), merge the submitted settings into the given mode's slot only,
stamp `updatedAt`, write back. (The request also invalidates the in-process
theme cache; the cache affects read staleness only, never the stored
record, and is not part of the store.) -/
def themePut (themes : List (String × DualThemeSettings)) (vault : String)
    (mode : ThemeMode) (settings : ThemeSettings) (now : Int) :
    List (String × DualThemeSettings) :=
  let dualTheme :=
    (alGet themes vault).getD { light := none, dark := none, updatedAt := none }
  let dualTheme' :=
    match mode with
    | ThemeMode.light => { dualTheme with light := some settings, updatedAt := some now }
    | ThemeMode.dark => { dualTheme with dark := some settings, updatedAt := some now }
  alPut themes vault dualTheme'

theorem themePut_get_self (themes : List (String × DualThemeSettings)) (vault : String)
    (mode : ThemeMode) (settings : ThemeSettings) (now : Int) :
    alGet (themePut themes vault mode settings now) vault
      = some (match mode with
        | ThemeMode.light =>
          { (alGet themes vault).getD { light := none, dark := none, updatedAt := none } with
            light := some settings, updatedAt := some now }
        | ThemeMode.dark =>
          { (alGet themes vault).getD { light := none, dark := none, updatedAt := none } with
            dark := some settings, updatedAt := some now }) := by
  unfold themePut
  exact alGet_alPut_self _ _ _

/-- C6: writing one theme mode is a merge, not a replace: after
PUT /api/theme with mode `m`, the stored record's slot for `m` holds the
submitted settings and `updatedAt` is restamped, while the other mode's slot
is exactly what the stored record held before the write; consequently
setting light then dark yields a record with both, and re-setting light
never erases the stored dark settings. -/
theorem C6_theme_merge_frame (themes : List (String × DualThemeSettings)) (vault : String)
    (mode : ThemeMode) (settings : ThemeSettings) (now : Int)
    (s1 s2 : ThemeSettings) (n1 n2 : Int) :
    (∃ d, alGet (themePut themes vault mode settings now) vault = some d ∧
      modeSlot mode d = some settings ∧
      d.updatedAt = some now ∧
      modeSlot (otherMode mode) d
        = modeSlot (otherMode mode)
            ((alGet themes vault).getD { light := none, dark := none, updatedAt := none })) ∧
    (∃ d, alGet (themePut (themePut themes vault ThemeMode.light s1 n1) vault
          ThemeMode.dark s2 n2) vault = some d ∧
      d.light = some s1 ∧ d.dark = some s2) := by
  constructor
  · cases mode with
    | light => exact ⟨_, themePut_get_self themes vault ThemeMode.light settings now,
        rfl, rfl, rfl⟩
    | dark => exact ⟨_, themePut_get_self themes vault ThemeMode.dark settings now,
        rfl, rfl, rfl⟩
  · refine ⟨_, themePut_get_self _ vault ThemeMode.dark s2 n2, ?_, rfl⟩
    show ((alGet (themePut themes vault ThemeMode.light s1 n1) vault).getD
        { light := none, dark := none, updatedAt := none }).light = some s1
    rw [themePut_get_self themes vault ThemeMode.light s1 n1]
    rfl

/-! ## View path: GET /g/:vault/:titleSlug/:hash and the 404 page -/

/-- The fixed 404 page of `render404` (src/index.ts lines 371-411); CSS
braces are written as the escapes \x7b and \x7d. -/
def render404 : String :=
  "<!DOCTYPE html>
<html lang=\"en\">
<head>
  <meta charset=\"UTF-8\">
  <meta name=\"viewport\" content=\"width=device-width, initial-scale=1.0\">
  <title>Note Not Found</title>
  <style>
    body \x7b
      margin: 0;
      padding: 40px 20px;
      font-family: -apple-system, BlinkMacSystemFont, \x27Segoe UI\x27, sans-serif;
      background: #1e1e1e;
      color: #e0e0e0;
      display: flex;
      align-items: center;
      justify-content: center;
      min-height: calc(100vh - 80px);
    \x7d
    .container \x7b
      text-align: center;
    \x7d
    h1 \x7b
      font-size: 4em;
      margin: 0;
      color: #666;
    \x7d
    p \x7b
      color: #888;
      margin-top: 1em;
    \x7d
  </style>
</head>
<body>
  <div class=\"container\">
    <h1>404</h1>
    <p>This note doesn\x27t exist or has been removed.</p>
  </div>
</body>
</html>"

/-- GET /g/:vault/:titleSlug/:hash (src/index.ts lines 291-326): fetch the
note object, return the 404 page when it is missing, return the same 404
page when the stored note's vault differs from the URL's vault, else render
the note with the vault's theme. The markdown renderer is a parameter (the
render pipeline lives in render.ts; both C7 paths return before it runs),
and the theme TTL cache — which affects only which theme value is read, never
the 404 paths — is omitted. The result is (status, body). -/
def viewNote (renderFn : StoredNote → Option DualThemeSettings → String → String)
    (st : Store) (vault titleSlug hash : String) (reqBase : String) : Nat × String :=
  match alGet st.notes (titleSlug, hash) with
  | none => (404, render404)
  | some note =>
    if note.vault ≠ vault then (404, render404)
    else (200, renderFn note (alGet st.themes vault) (reqBase ++ "/g/" ++ vault))

/-- C7: on the view path, a missing note object and a note stored under a
different vault are indistinguishable: both produce exactly the same
response, the 404 status with the fixed not-found page, whatever the stores,
the renderer and the request base URL. -/
theorem C7_not_found_indistinguishable
    (renderFn1 renderFn2 : StoredNote → Option DualThemeSettings → String → String)
    (st1 st2 : Store) (vault titleSlug hash : String) (base1 base2 : String)
    (note : StoredNote)
    (h1 : alGet st1.notes (titleSlug, hash) = none)
    (h2 : alGet st2.notes (titleSlug, hash) = some note)
    (hv : note.vault ≠ vault) :
    viewNote renderFn1 st1 vault titleSlug hash base1
      = viewNote renderFn2 st2 vault titleSlug hash base2 ∧
    viewNote renderFn1 st1 vault titleSlug hash base1 = (404, render404) := by
  have e1 : viewNote renderFn1 st1 vault titleSlug hash base1 = (404, render404) := by
    unfold viewNote
    rw [h1]
  have e2 : viewNote renderFn2 st2 vault titleSlug hash base2 = (404, render404) := by
    unfold viewNote
    rw [h2]
    show (if note.vault ≠ vault then ((404 : Nat), render404)
      else (200, renderFn2 note (alGet st2.themes vault) (base2 ++ "/g/" ++ vault)))
      = (404, render404)
    rw [if_pos hv]
  exact ⟨e1.trans e2.symm, e1⟩

/-- A note stored under vault "w", viewed through vault "v", for the C7
witness. -/
def viewDemoNote : StoredNote :=
  { vault := "w", titleSlug := "a", hash := "h1", title := "A", content := "",
    createdAt := 0, updatedAt := none, linkedNotes := [], retentionDays := none }

/-- A store holding only `viewDemoNote`, for the C7 witness. -/
def viewDemoStore : Store :=
  { notes := [(("a", "h1"), viewDemoNote)], indexes := [], images := [], themes := [] }

/-- Witness for C7: an empty store and a store with a wrong-vault note give
the same response on the view path. -/
theorem C7_not_found_indistinguishable_witness :
    viewNote (fun _ _ _ => "") emptyStore "v" "a" "h1" ""
      = viewNote (fun _ _ _ => "") viewDemoStore "v" "a" "h1" "" :=
  (C7_not_found_indistinguishable (fun _ _ _ => "") (fun _ _ _ => "")
    emptyStore viewDemoStore "v" "a" "h1" "" "" viewDemoNote
    (by decide) (by decide) (by decide)).1

/-! ## Markdown Render Engine: internal links (src/render.ts lines 108-135) -/

theorem dropWhile_length_le {α : Type} (p : α → Bool) :
    ∀ l : List α, (l.dropWhile p).length ≤ l.length
  | [] => Nat.le_refl _
  | _ :: cs => by
    rw [List.dropWhile_cons]
    split
    · exact Nat.le_trans (dropWhile_length_le p cs) (Nat.le_succ _)
    · exact Nat.le_refl _

/-- `escapeHtml` (render.ts lines 128-135): the five sequential `replace`
calls, `&` first; as no later pattern matches inserted text, the sequence
equals this single character-wise pass. `Char.ofNat 34` is the double quote
and `Char.ofNat 39` the apostrophe. -/
def escapeHtmlChar (c : Char) : String :=
  if c = '&' then "&amp;"
  else if c = '<' then "&lt;"
  else if c = '>' then "&gt;"
  else if c = Char.ofNat 34 then "&quot;"
  else if c = Char.ofNat 39 then "&#039;"
  else String.singleton c

/-- `escapeHtml` applied to a whole string. -/
def escapeHtml (text : String) : String :=
  String.join (text.data.map escapeHtmlChar)

/-- One attempt of the regex `\[\[([^\]|]+)(?:\|([^\]]+))?\]\]` at the head
of the text: `[[`, a nonempty target without `]` or `|`, optionally `|` and
a nonempty display without `]`, then `]]`. Greedy `takeWhile` is exact here:
the characters that could follow a shortened group are excluded from its
class, so backtracking can never produce a match that this scan misses.
Returns the target, the optional display, and the remainder. -/
def tryMatchLink (cs : List Char) : Option (List Char × Option (List Char) × List Char) :=
  match cs with
  | '[' :: '[' :: rest =>
    if (rest.takeWhile (fun c => !(c == ']' || c == '|'))).isEmpty then none
    else
      match rest.dropWhile (fun c => !(c == ']' || c == '|')) with
      | ']' :: ']' :: rest2 =>
        some (rest.takeWhile (fun c => !(c == ']' || c == '|')), none, rest2)
      | '|' :: rest2 =>
        if (rest2.takeWhile (fun c => !(c == ']'))).isEmpty then none
        else
          match rest2.dropWhile (fun c => !(c == ']')) with
          | ']' :: ']' :: rest4 =>
            some (rest.takeWhile (fun c => !(c == ']' || c == '|')),
              some (rest2.takeWhile (fun c => !(c == ']'))), rest4)
          | _ => none
      | _ => none
  | _ => none

theorem tryMatchLink_rest_length {cs : List Char}
    {m : List Char × Option (List Char) × List Char}
    (h : tryMatchLink cs = some m) : m.2.2.length < cs.length := by
  unfold tryMatchLink at h
  split at h
  · rename_i rest
    split at h
    · cases h
    · split at h
      · rename_i rest2 heq
        cases h
        have hr1 := dropWhile_length_le (fun c => !(c == ']' || c == '|')) rest
        rw [heq] at hr1
        simp only [List.length_cons] at hr1 ⊢
        omega
      · rename_i rest2 heq
        split at h
        · cases h
        · split at h
          · rename_i rest4 heq2
            cases h
            have hr1 := dropWhile_length_le (fun c => !(c == ']' || c == '|')) rest
            have hr2 := dropWhile_length_le (fun c => !(c == ']')) rest2
            rw [heq] at hr1
            rw [heq2] at hr2
            simp only [List.length_cons] at hr1 hr2 ⊢
            omega
          · cases h
      · cases h
  · cases h

/-- The replacement for one matched wikilink (render.ts lines 113-124): slug
the target (line 114 inlines the shared `slugify`), take `display || link`
as the text, look the slug up in the note's `linkedNotes`; if found emit the
internal-link anchor to `{baseUrl}/{slug}/{hash}`, else the unresolved
span. -/
def renderLink (linkedNotes : List LinkRef) (baseUrl : String)
    (target : List Char) (display : Option (List Char)) : String :=
  let slug := slugify (String.mk target)
  let text := String.mk (display.getD target)
  match linkedNotes.find? (fun n => decide (n.titleSlug = slug)) with
  | some linkedNote =>
    "<a href=\"" ++ baseUrl ++ "/" ++ slug ++ "/" ++ linkedNote.hash
      ++ "\" class=\"internal-link\">" ++ escapeHtml text ++ "</a>"
  | none => "<span class=\"internal-link unresolved\">" ++ escapeHtml text ++ "</span>"

/-- The global replace of `content.replace(regex, ...)`: scan left to right,
at each match emit the replacement and resume after it, otherwise copy one
character. -/
def replaceLinks (linkedNotes : List LinkRef) (baseUrl : String) : List Char → String
  | [] => ""
  | c :: cs =>
    match h : tryMatchLink (c :: cs) with
    | some m =>
      renderLink linkedNotes baseUrl m.1 m.2.1 ++ replaceLinks linkedNotes baseUrl m.2.2
    | none => String.singleton c ++ replaceLinks linkedNotes baseUrl cs
termination_by l => l.length
decreasing_by
  · exact tryMatchLink_rest_length h
  · simp

/-- `processInternalLinks` (render.ts lines 108-126). -/
def processInternalLinks (content : String) (baseUrl : String)
    (linkedNotes : List LinkRef) : String :=
  replaceLinks linkedNotes baseUrl content.data

theorem replaceLinks_nil (linkedNotes : List LinkRef) (baseUrl : String) :
    replaceLinks linkedNotes baseUrl [] = "" := by
  rw [replaceLinks]

theorem replaceLinks_cons_none {linkedNotes : List LinkRef} {baseUrl : String}
    {c : Char} {cs : List Char} (h : tryMatchLink (c :: cs) = none) :
    replaceLinks linkedNotes baseUrl (c :: cs)
      = String.singleton c ++ replaceLinks linkedNotes baseUrl cs := by
  rw [replaceLinks]
  split
  · rename_i m hm
    rw [h] at hm
    cases hm
  · rfl

theorem replaceLinks_cons_some {linkedNotes : List LinkRef} {baseUrl : String}
    {c : Char} {cs : List Char} {m : List Char × Option (List Char) × List Char}
    (h : tryMatchLink (c :: cs) = some m) :
    replaceLinks linkedNotes baseUrl (c :: cs)
      = renderLink linkedNotes baseUrl m.1 m.2.1
        ++ replaceLinks linkedNotes baseUrl m.2.2 := by
  rw [replaceLinks]
  split
  · rename_i m' hm
    rw [h] at hm
    cases hm
    rfl
  · rename_i hm
    rw [h] at hm
    cases hm

theorem takeWhile_all_append {α : Type} (p : α → Bool) :
    ∀ (l r : List α), (∀ c ∈ l, p c = true) →
      (l ++ r).takeWhile p = l ++ r.takeWhile p
  | [], _, _ => rfl
  | c :: l, r, h => by
    rw [List.cons_append, List.takeWhile_cons, h c (List.mem_cons_self c l),
      takeWhile_all_append p l r (fun x hx => h x (List.mem_cons_of_mem _ hx))]
    rfl

theorem dropWhile_all_append {α : Type} (p : α → Bool) :
    ∀ (l r : List α), (∀ c ∈ l, p c = true) →
      (l ++ r).dropWhile p = r.dropWhile p
  | [], _, _ => rfl
  | c :: l, r, h => by
    rw [List.cons_append, List.dropWhile_cons, h c (List.mem_cons_self c l)]
    exact dropWhile_all_append p l r (fun x hx => h x (List.mem_cons_of_mem _ hx))

theorem linkTargetChar_pred {c : Char} (h : c ≠ ']' ∧ c ≠ '|') :
    (!(c == ']' || c == '|')) = true := by
  simp only [Bool.not_eq_true', Bool.or_eq_false_iff, beq_eq_false_iff_ne]
  exact h

theorem tryMatchLink_cons_head (X : List Char) :
    tryMatchLink ('[' :: '[' :: X)
      = (if (X.takeWhile (fun c => !(c == ']' || c == '|'))).isEmpty then none
        else
          match X.dropWhile (fun c => !(c == ']' || c == '|')) with
          | ']' :: ']' :: rest2 =>
            some (X.takeWhile (fun c => !(c == ']' || c == '|')), none, rest2)
          | '|' :: rest2 =>
            if (rest2.takeWhile (fun c => !(c == ']'))).isEmpty then none
            else
              match rest2.dropWhile (fun c => !(c == ']')) with
              | ']' :: ']' :: rest4 =>
                some (X.takeWhile (fun c => !(c == ']' || c == '|')),
                  some (rest2.takeWhile (fun c => !(c == ']'))), rest4)
              | _ => none
          | _ => none) := rfl

theorem tryMatchLink_at_link (target post : List Char) (hne : target ≠ [])
    (ht : ∀ c ∈ target, c ≠ ']' ∧ c ≠ '|') :
    tryMatchLink ('[' :: '[' :: (target ++ ']' :: ']' :: post))
      = some (target, none, post) := by
  have htake : (target ++ ']' :: ']' :: post).takeWhile (fun c => !(c == ']' || c == '|'))
      = target := by
    rw [takeWhile_all_append _ _ _ (fun c hc => linkTargetChar_pred (ht c hc)),
      List.takeWhile_cons]
    simp
  have hdrop : (target ++ ']' :: ']' :: post).dropWhile (fun c => !(c == ']' || c == '|'))
      = ']' :: ']' :: post := by
    rw [dropWhile_all_append _ _ _ (fun c hc => linkTargetChar_pred (ht c hc)),
      List.dropWhile_cons]
    simp
  rw [tryMatchLink_cons_head, htake, hdrop, if_neg (by simpa using hne)]
  rfl

theorem tryMatchLink_at_link_disp (target disp post : List Char) (hne : target ≠ [])
    (ht : ∀ c ∈ target, c ≠ ']' ∧ c ≠ '|') (hdne : disp ≠ [])
    (hd : ∀ c ∈ disp, c ≠ ']') :
    tryMatchLink ('[' :: '[' :: (target ++ '|' :: (disp ++ ']' :: ']' :: post)))
      = some (target, some disp, post) := by
  have htake : (target ++ '|' :: (disp ++ ']' :: ']' :: post)).takeWhile
      (fun c => !(c == ']' || c == '|')) = target := by
    rw [takeWhile_all_append _ _ _ (fun c hc => linkTargetChar_pred (ht c hc)),
      List.takeWhile_cons]
    simp
  have hdrop : (target ++ '|' :: (disp ++ ']' :: ']' :: post)).dropWhile
      (fun c => !(c == ']' || c == '|')) = '|' :: (disp ++ ']' :: ']' :: post) := by
    rw [dropWhile_all_append _ _ _ (fun c hc => linkTargetChar_pred (ht c hc)),
      List.dropWhile_cons]
    simp
  have htake2 : (disp ++ ']' :: ']' :: post).takeWhile (fun c => !(c == ']')) = disp := by
    rw [takeWhile_all_append _ _ _
      (fun c hc => by simpa [Bool.not_eq_true', beq_eq_false_iff_ne] using hd c hc),
      List.takeWhile_cons]
    simp
  have hdrop2 : (disp ++ ']' :: ']' :: post).dropWhile (fun c => !(c == ']'))
      = ']' :: ']' :: post := by
    rw [dropWhile_all_append _ _ _
      (fun c hc => by simpa [Bool.not_eq_true', beq_eq_false_iff_ne] using hd c hc),
      List.dropWhile_cons]
    simp
  rw [tryMatchLink_cons_head, htake, hdrop, if_neg (by simpa using hne)]
  show (if ((disp ++ ']' :: ']' :: post).takeWhile (fun c => !(c == ']'))).isEmpty then none
    else
      match (disp ++ ']' :: ']' :: post).dropWhile (fun c => !(c == ']')) with
      | ']' :: ']' :: rest4 => some (target, some ((disp ++ ']' :: ']' :: post).takeWhile
          (fun c => !(c == ']'))), rest4)
      | _ => none) = some (target, some disp, post)
  rw [htake2, hdrop2, if_neg (by simpa using hdne)]
  rfl

theorem tryMatchLink_none_of_ne {c : Char} (cs : List Char) (hc : c ≠ '[') :
    tryMatchLink (c :: cs) = none := by
  unfold tryMatchLink
  split
  · rename_i rest heq
    injection heq with h1 h2
    exact absurd h1 hc
  · rfl

theorem singleton_append_mk (c : Char) (l : List Char) :
    String.singleton c ++ String.mk l = String.mk (c :: l) := rfl

theorem replaceLinks_append_safe {linkedNotes : List LinkRef} {baseUrl : String} :
    ∀ (pre s : List Char), (∀ c ∈ pre, c ≠ '[') →
      replaceLinks linkedNotes baseUrl (pre ++ s)
        = String.mk pre ++ replaceLinks linkedNotes baseUrl s
  | [], s, _ => by
    rw [List.nil_append]
    show replaceLinks linkedNotes baseUrl s
      = String.mk [] ++ replaceLinks linkedNotes baseUrl s
    rfl
  | c :: pre, s, hp => by
    rw [List.cons_append,
      replaceLinks_cons_none (tryMatchLink_none_of_ne _ (hp c (List.mem_cons_self c pre))),
      replaceLinks_append_safe pre s (fun x hx => hp x (List.mem_cons_of_mem _ hx)),
      ← String.append_assoc, singleton_append_mk]

theorem renderLink_eq (linkedNotes : List LinkRef) (baseUrl : String)
    (target : List Char) (display : Option (List Char)) :
    renderLink linkedNotes baseUrl target display
      = match linkedNotes.find? (fun n => decide (n.titleSlug = slugify (String.mk target))) with
        | some linkedNote =>
          "<a href=\"" ++ baseUrl ++ "/" ++ slugify (String.mk target) ++ "/"
            ++ linkedNote.hash ++ "\" class=\"internal-link\">"
            ++ escapeHtml (String.mk (display.getD target)) ++ "</a>"
        | none => "<span class=\"internal-link unresolved\">"
            ++ escapeHtml (String.mk (display.getD target)) ++ "</span>" := rfl

/-- C8: for a wikilink `[[Target]]` or `[[Target|Display]]` occurring in the
content (after a prefix holding no `[`), rendering slugifies the target and
looks the slug up in the note's `linkedNotes`: with a matching entry the
output contains the hyperlink `{baseUrl}/{slug}/{hash}` built from that
entry's hash around the escaped display text (or the target when no display
is given); without one it contains the visually distinct unresolved span
with the escaped text instead of a broken link; rendering is total, and the
rest of the content is processed unchanged. -/
theorem C8_internal_link_resolution (linkedNotes : List LinkRef) (baseUrl : String)
    (pre target post : List Char) (display : Option (List Char))
    (hpre : ∀ c ∈ pre, c ≠ '[')
    (htne : target ≠ []) (ht : ∀ c ∈ target, c ≠ ']' ∧ c ≠ '|')
    (hd : ∀ d, display = some d → d ≠ [] ∧ ∀ c ∈ d, c ≠ ']') :
    processInternalLinks
      (String.mk (pre ++ '[' :: '[' :: (target
        ++ (match display with
            | none => ']' :: ']' :: post
            | some d => '|' :: (d ++ ']' :: ']' :: post)))))
      baseUrl linkedNotes
    = String.mk pre
      ++ (match linkedNotes.find?
            (fun n => decide (n.titleSlug = slugify (String.mk target))) with
          | some linkedNote =>
            "<a href=\"" ++ baseUrl ++ "/" ++ slugify (String.mk target) ++ "/"
              ++ linkedNote.hash ++ "\" class=\"internal-link\">"
              ++ escapeHtml (String.mk (display.getD target)) ++ "</a>"
          | none => "<span class=\"internal-link unresolved\">"
              ++ escapeHtml (String.mk (display.getD target)) ++ "</span>")
      ++ processInternalLinks (String.mk post) baseUrl linkedNotes := by
  unfold processInternalLinks
  rw [data_mk, data_mk]
  rw [String.append_assoc]
  cases display with
  | none =>
    rw [replaceLinks_append_safe _ _ hpre,
      replaceLinks_cons_some (tryMatchLink_at_link target post htne ht)]
    rw [← renderLink_eq linkedNotes baseUrl target none]
  | some d =>
    obtain ⟨hdne, hdc⟩ := hd d rfl
    rw [replaceLinks_append_safe _ _ hpre,
      replaceLinks_cons_some (tryMatchLink_at_link_disp target d post htne ht hdne hdc)]
    rw [← renderLink_eq linkedNotes baseUrl target (some d)]

/-- Witness for C8: a content with one resolvable wikilink renders to the
hyperlink built from the linked note's hash. -/
theorem C8_internal_link_resolution_witness :
    processInternalLinks "See [[My Note]]" "https://x/g/v"
        [{ titleSlug := "my-note", hash := "abcd1234" }]
      = "See <a href=\"https://x/g/v/my-note/abcd1234\" class=\"internal-link\">My Note</a>" := by
  have h := C8_internal_link_resolution [{ titleSlug := "my-note", hash := "abcd1234" }]
    "https://x/g/v" "See ".data "My Note".data [] none
    (by decide) (by decide) (by decide) (fun d hd => by cases hd)
  rw [show processInternalLinks (String.mk []) "https://x/g/v"
      [{ titleSlug := "my-note", hash := "abcd1234" }] = "" from replaceLinks_nil _ _] at h
  exact h.trans (by decide)
